import Mathlib

/-!
Query construction helpers of `lib/clickhouse.js`

A shallow embedding of the pure part of `src/lib/clickhouse.js`
(`getDateFormat`, `getBetweenDates`, `getFilterQuery`, `parseFilters`,
`replaceQuery`, `findUnique`, `findFirst`) together with the properties stated
for it.

Conventions of the embedding.

* JavaScript strings are Lean `String`s; the text algorithms work on the
  character list `String.data`.
* A thrown exception is `none` (for `decodeURIComponent`, whose only failure is
  `URIError`) or `Except.error msg` (for the string thrown by `findUnique`).
* The shared, mutated `params` array is passed in and returned explicitly.
* `decodeURIComponent` is a built-in of the host language; it is a parameter
  `decode` of the functions that call it. The formatter of the `dateformat`
  package is a parameter `dateFormat` in the same way.
-/

set_option linter.unusedVariables false

namespace Umami

/-! ## Data model -/

/-- A value stored under a filter key: `undefined` (also the value read from an
absent key), the `FILTER_IGNORED` sentinel, or a string. -/
inductive FilterValue where
  | undefined : FilterValue
  | ignored : FilterValue
  | str (s : String) : FilterValue
  deriving DecidableEq, Repr

/-- A filter object: its own keys in enumeration order with their values. -/
abbrev Filters := List (String × FilterValue)

/-- A query parameter: a string, or a number that is a safe integer, that is an
integer `n` with `|n| < 2^53`. These are the integers that a JavaScript number
holds exactly and that `ToString` writes as their decimal numeral; larger
numbers (written in exponent notation from `1e21` on) are not parameters of the
model. -/
inductive Param where
  | str (s : String) : Param
  | int (n : Int) (safe : n.natAbs < 9007199254740992) : Param
  deriving DecidableEq

/-- The built-in `decodeURIComponent`: `none` stands for a thrown `URIError`. -/
abbrev Decoder := String → Option String

/-- The behaviour of `decodeURIComponent` on a text without `%`: the text is
returned unchanged. It instantiates the decoder in examples whose texts have no
`%`. -/
def identityDecoder : Decoder := fun s => some s

/-- The value of a hexadecimal digit. -/
def hexDigit? (c : Char) : Option Nat :=
  if c.isDigit then some (c.toNat - 48)
  else if 'a' ≤ c ∧ c ≤ 'f' then some (c.toNat - 87)
  else if 'A' ≤ c ∧ c ≤ 'F' then some (c.toNat - 55)
  else none

/-- Percent-decoding of a text whose escape sequences all denote bytes below
0x80: every `%XX` is replaced by the character with that code, other characters
are copied, and a `%` that is not followed by two hexadecimal digits yields
`none`. Escape sequences of bytes from 0x80 on, which `decodeURIComponent` reads
as UTF-8, are not modelled and yield `none` as well. -/
def asciiDecodeChars : List Char → Option (List Char)
  | [] => some []
  | '%' :: h :: l :: rest =>
    match hexDigit? h, hexDigit? l with
    | some a, some b =>
      if 16 * a + b < 128 then
        (asciiDecodeChars rest).map fun r => Char.ofNat (16 * a + b) :: r
      else none
    | _, _ => none
  | c :: rest => if c = '%' then none else (asciiDecodeChars rest).map fun r => c :: r

/-- The behaviour of `decodeURIComponent` on a text whose escape sequences all
denote bytes below 0x80. It instantiates the decoder in examples with such
texts. -/
def asciiDecoder : Decoder := fun s => (asciiDecodeChars s.data).map String.mk

/-- Property read `filters[key]`: the value of the key, `undefined` when absent. -/
def Filters.get (filters : Filters) (key : String) : FilterValue :=
  match filters.find? (fun kv => kv.1 == key) with
  | some kv => kv.2
  | none => FilterValue.undefined

/-- The guard `filter === undefined || filter === FILTER_IGNORED` negated: the
string carried by an active filter value. -/
def FilterValue.active? : FilterValue → Option String
  | FilterValue.str s => some s
  | _ => none

/-- The placeholder text `$k`. -/
def placeholder (k : Nat) : String := "$" ++ toString k

/-! ## getFilterQuery -/

/-- One step of the `reduce` callback of `getFilterQuery` for an active filter
value `filter` under `key`: the clauses pushed on `arr` and the parameters pushed
on `params` (whose current length is `len`), or `none` when
`decodeURIComponent` throws. -/
def filterCase (decode : Decoder) (table key filter : String) (len : Nat) :
    Option (List String × List Param) :=
  if key = "url" then
    if table = "pageview" ∨ table = "event" then
      (decode filter).map fun d =>
        (["and " ++ table ++ "." ++ key ++ "=" ++ placeholder (len + 1)], [Param.str d])
    else some ([], [])
  else if key = "os" ∨ key = "browser" ∨ key = "device" ∨ key = "country" then
    if table = "session" then
      (decode filter).map fun d =>
        (["and " ++ table ++ "." ++ key ++ "=" ++ placeholder (len + 1)], [Param.str d])
    else some ([], [])
  else if key = "event_name" then
    if table = "event" then
      (decode filter).map fun d =>
        (["and " ++ table ++ "." ++ key ++ "=" ++ placeholder (len + 1)], [Param.str d])
    else some ([], [])
  else if key = "referrer" then
    if table = "pageview" ∨ table = "event" then
      (decode filter).map fun d =>
        (["and " ++ table ++ ".referrer like " ++ placeholder (len + 1)],
          [Param.str ("%" ++ d ++ "%")])
    else some ([], [])
  else if key = "domain" then
    if table = "pageview" then
      some (["and " ++ table ++ ".referrer not like " ++ placeholder (len + 1),
             "and " ++ table ++ ".referrer not like '/%'"],
            [Param.str ("%://" ++ filter ++ "/%")])
    else some ([], [])
  else if key = "query" then
    if table = "pageview" then
      some (["and " ++ table ++ ".url like '%?%'"], [])
    else some ([], [])
  else some ([], [])

/-- The `reduce` of `getFilterQuery` over `Object.keys(filters)`, started with
the accumulator `arr` and the shared list `params`: the final accumulator and
parameter list, or `none` when a step throws. -/
def getFilterClauses (decode : Decoder) (table : String) :
    Filters → List String → List Param → Option (List String × List Param)
  | [], arr, params => some (arr, params)
  | (key, filter) :: rest, arr, params =>
    match filter.active? with
    | none => getFilterClauses decode table rest arr params
    | some v =>
      match filterCase decode table key v params.length with
      | none => none
      | some (cs, ps) => getFilterClauses decode table rest (arr ++ cs) (params ++ ps)

/-- `getFilterQuery(table, column, filters, params)`: the clauses joined with a
newline, and the parameter list after the call. -/
def getFilterQuery (decode : Decoder) (table column : String) (filters : Filters)
    (params : List Param) : Option (String × List Param) :=
  (getFilterClauses decode table filters [] params).map fun r =>
    ("\n".intercalate r.1, r.2)

/-! ## parseFilters -/

/-- JavaScript truthiness of a filter value; `ignoredTruthy` is the truthiness
of the `FILTER_IGNORED` constant, which is defined outside this file. -/
def FilterValue.truthy (ignoredTruthy : Bool) : FilterValue → Bool
  | FilterValue.undefined => false
  | FilterValue.ignored => ignoredTruthy
  | FilterValue.str s => s != ""

/-- The part of the object returned by `parseFilters` that is computed. -/
structure ParsedFilters where
  pageviewFilters : Filters
  sessionFilters : Filters
  eventFilters : Filters
  event : Filters
  joinSession : String
  pageviewQuery : String
  sessionQuery : String
  eventQuery : String
  deriving DecidableEq, Repr

/-- `parseFilters(table, column, filters, params, sessionKey)`: the returned
object and the parameter list after the call, or `none` when a decoding
throws. -/
def parseFilters (decode : Decoder) (ignoredTruthy : Bool) (table column : String)
    (filters : Filters) (params : List Param) (sessionKey : String) :
    Option (ParsedFilters × List Param) :=
  let domain := filters.get "domain"
  let url := filters.get "url"
  let event_url := filters.get "event_url"
  let referrer := filters.get "referrer"
  let os := filters.get "os"
  let browser := filters.get "browser"
  let device := filters.get "device"
  let country := filters.get "country"
  let event_name := filters.get "event_name"
  let query := filters.get "query"
  let pageviewFilters : Filters :=
    [("domain", domain), ("url", url), ("referrer", referrer), ("query", query)]
  let sessionFilters : Filters :=
    [("os", os), ("browser", browser), ("device", device), ("country", country)]
  let eventFilters : Filters := [("url", event_url), ("event_name", event_name)]
  let joinSession :=
    if os.truthy ignoredTruthy || browser.truthy ignoredTruthy ||
        device.truthy ignoredTruthy || country.truthy ignoredTruthy then
      "inner join session on " ++ table ++ "." ++ sessionKey ++ " = session." ++ sessionKey
    else ""
  match getFilterQuery decode "pageview" column pageviewFilters params with
  | none => none
  | some (pageviewQuery, params1) =>
    match getFilterQuery decode "session" column sessionFilters params1 with
    | none => none
    | some (sessionQuery, params2) =>
      match getFilterQuery decode "event" column eventFilters params2 with
      | none => none
      | some (eventQuery, params3) =>
        some ({ pageviewFilters := pageviewFilters
                sessionFilters := sessionFilters
                eventFilters := eventFilters
                event := [("event_name", event_name)]
                joinSession := joinSession
                pageviewQuery := pageviewQuery
                sessionQuery := sessionQuery
                eventQuery := eventQuery }, params3)

/-- The object `pageviewFilters` that `parseFilters` builds from `filters`. -/
def pageviewFiltersOf (filters : Filters) : Filters :=
  [("domain", filters.get "domain"), ("url", filters.get "url"),
   ("referrer", filters.get "referrer"), ("query", filters.get "query")]

/-- The object `sessionFilters` that `parseFilters` builds from `filters`. -/
def sessionFiltersOf (filters : Filters) : Filters :=
  [("os", filters.get "os"), ("browser", filters.get "browser"),
   ("device", filters.get "device"), ("country", filters.get "country")]

/-- The object `eventFilters` that `parseFilters` builds from `filters`. -/
def eventFiltersOf (filters : Filters) : Filters :=
  [("url", filters.get "event_url"), ("event_name", filters.get "event_name")]

/-- The value of `joinSession` in `parseFilters`. -/
def joinSessionOf (ignoredTruthy : Bool) (table : String) (filters : Filters)
    (sessionKey : String) : String :=
  if (filters.get "os").truthy ignoredTruthy || (filters.get "browser").truthy ignoredTruthy ||
      (filters.get "device").truthy ignoredTruthy ||
      (filters.get "country").truthy ignoredTruthy then
    "inner join session on " ++ table ++ "." ++ sessionKey ++ " = session." ++ sessionKey
  else ""

/-! ## Date expressions -/

/-- `getDateFormat(date)`: the formatted date between apostrophes. The
formatter `dateFormat` of the `dateformat` package is a parameter; it is called
with the mask of the source. -/
def getDateFormat {Date : Type} (dateFormat : Date → String → String) (date : Date) :
    String :=
  "'" ++ dateFormat date "UTC:yyyy-mm-dd HH:MM:ss" ++ "'"

/-- `getBetweenDates(field, start_at, end_at)`. The template literal of the
source runs over two lines: a blank and a line break follow the first date, and
the second line is indented by four blanks. -/
def getBetweenDates {Date : Type} (dateFormat : Date → String → String) (field : String)
    (start_at end_at : Date) : String :=
  field ++ " between " ++ getDateFormat dateFormat start_at ++ " \n    and " ++
    getDateFormat dateFormat end_at

/-- The values of `dateFormat(date, 'UTC:yyyy-mm-dd HH:MM:ss')` at the
timestamps 0 ms and 86400000 ms after the epoch, for examples; other timestamps
are outside its use. -/
def epochDateFormat (date : Nat) (mask : String) : String :=
  if date = 0 then "1970-01-01 00:00:00" else "1970-01-02 00:00:00"

/-! ## replaceQuery -/

/-- The apostrophe, U+0027. -/
def apostrophe : Char := Char.ofNat 39

/-- The grave accent, U+0060. -/
def graveAccent : Char := Char.ofNat 96

/-- Search of `String.prototype.replace` for a string pattern: the text before
and the text after the first occurrence of `pat` in the subject, `none` when
`pat` does not occur. -/
def splitFirst (pat : List Char) : List Char → Option (List Char × List Char)
  | [] => if pat = [] then some ([], []) else none
  | c :: cs =>
    if pat.isPrefixOf (c :: cs) then some ([], (c :: cs).drop pat.length)
    else (splitFirst pat cs).map fun r => (c :: r.1, r.2)

/-- The abstract operation `GetSubstitution` for a string pattern, which has no
capture groups: in the replacement text `$$` stands for `$`, `$&` for the
matched text, `$` followed by a grave accent for the text before the match and
`$` followed by an apostrophe for the text after it; every other character,
also a `$` followed by a digit or by `<`, stands for itself. -/
def getSubstitution (matched before after : List Char) : List Char → List Char
  | [] => []
  | [c] => [c]
  | c :: d :: rest =>
    if c = '$' then
      if d = '$' then '$' :: getSubstitution matched before after rest
      else if d = graveAccent then before ++ getSubstitution matched before after rest
      else if d = '&' then matched ++ getSubstitution matched before after rest
      else if d = apostrophe then after ++ getSubstitution matched before after rest
      else c :: getSubstitution matched before after (d :: rest)
    else c :: getSubstitution matched before after (d :: rest)

/-- The method call `s.replace(pat, repl)` for strings `pat` and `repl`: the
first occurrence of `pat` is replaced by the expansion of `repl`. -/
def jsReplace (s pat repl : List Char) : List Char :=
  match splitFirst pat s with
  | none => s
  | some (before, after) => before ++ getSubstitution pat before after repl ++ after

/-- The value of `replace` handed to `String.prototype.replace`: a string
parameter between apostrophes; a number is converted by `ToString`, which for a
safe integer is its decimal numeral. -/
def Param.literal : Param → String
  | Param.str s => "'" ++ s ++ "'"
  | Param.int n _ => toString n

/-- The `forEach` of `replaceQuery` over the parameters that follow index `i`. -/
def replaceQueryFrom : Nat → List Char → List Param → List Char
  | _, s, [] => s
  | i, s, a :: rest =>
    replaceQueryFrom (i + 1) (jsReplace s (placeholder (i + 1)).data a.literal.data) rest

/-- `replaceQuery(string, params)`. -/
def replaceQuery (string : String) (params : List Param) : String :=
  String.mk (replaceQueryFrom 0 string.data params)

/-! ## findUnique and findFirst -/

/-- `findUnique(data)`: the promise is rejected with a message when there is
more than one row; otherwise it resolves to `data[0] ?? null`. -/
def findUnique {Row : Type} (data : List Row) : Except String (Option Row) :=
  if data.length > 1 then
    Except.error (toString data.length ++ " records found when expecting 1.")
  else Except.ok data.head?

/-- `findFirst(data)`: resolves to `data[0] ?? null`. -/
def findFirst {Row : Type} (data : List Row) : Except String (Option Row) :=
  Except.ok data.head?

/-! ## Placeholders of a text and one-pass substitution -/

/-- The digit runs of a text: for every `$` of the text, from left to right,
the longest run of decimal digits that follows it. -/
def dollarRuns : List Char → List (List Char)
  | [] => []
  | c :: cs => if c = '$' then cs.takeWhile Char.isDigit :: dollarRuns cs else dollarRuns cs

/-- The number written by a run of decimal digits. -/
def digitsValue (ds : List Char) : Nat :=
  ds.foldl (fun acc c => 10 * acc + (c.toNat - 48)) 0

/-- The index of a placeholder `$ds`: `ds` has to be the decimal numeral of a
positive number. -/
def placeholderIndex (ds : List Char) : Option Nat :=
  if 0 < digitsValue ds ∧ (toString (digitsValue ds)).data = ds then some (digitsValue ds)
  else none

/-- The placeholder indices of a text, from left to right. -/
def placeholderIndices (s : String) : List Nat :=
  (dollarRuns s.data).filterMap placeholderIndex

/-- What a one-pass substitution writes for the token `$ds`: the literal of
`params[i-1]` when `ds` is the numeral of an index `i` of the list, the token
itself otherwise. -/
def resolveToken (params : List Param) (ds : List Char) : List Char :=
  match placeholderIndex ds with
  | none => '$' :: ds
  | some i =>
    match params.get? (i - 1) with
    | some a => a.literal.data
    | none => '$' :: ds

/-- One left-to-right pass over the template; `pending` holds the digits read
after a `$` whose token is not yet complete. Text that has been written is never
read again. -/
def onePass (params : List Param) : Option (List Char) → List Char → List Char
  | none, [] => []
  | some ds, [] => resolveToken params ds
  | none, c :: cs => if c = '$' then onePass params (some []) cs else c :: onePass params none cs
  | some ds, c :: cs =>
    if c.isDigit then onePass params (some (ds ++ [c])) cs
    else resolveToken params ds ++
      (if c = '$' then onePass params (some []) cs else c :: onePass params none cs)

/-- The substitution the specification describes: every placeholder `$i` of
the template with `1 ≤ i ≤ params.length` is replaced by the literal of
`params[i-1]` in a single pass; other text is copied. -/
def substituteOnePass (template : String) (params : List Param) : String :=
  String.mk (onePass params none template.data)

/-- The text does not begin with a decimal digit. -/
def NoLeadingDigit (s : List Char) : Prop := ∀ c ∈ s.head?, c.isDigit = false

/-- A replacement text has a special pattern when one of its `$` is followed by
`$`, `&`, a grave accent or an apostrophe. -/
def hasSpecialPattern : List Char → Bool
  | [] => false
  | [_] => false
  | c :: d :: rest =>
    (c == '$' && (d == '$' || d == graveAccent || d == '&' || d == apostrophe)) ||
      hasSpecialPattern (d :: rest)

/-! ## Eligibility table of the specification -/

/-- The eligibility table: the tables on which a filter key yields a clause. -/
def eligible (key table : String) : Bool :=
  if key = "url" then table = "pageview" ∨ table = "event"
  else if key = "os" ∨ key = "browser" ∨ key = "device" ∨ key = "country" then
    table = "session"
  else if key = "event_name" then table = "event"
  else if key = "referrer" then table = "pageview" ∨ table = "event"
  else if key = "domain" then table = "pageview"
  else if key = "query" then table = "pageview"
  else false

/-- The clauses the eligibility table lists for a key, written for `table` with
placeholder index `k`: an equality for `url`, `os`, `browser`, `device`,
`country` and `event_name`, a `like` for `referrer`, the two `not like` clauses
for `domain` and the fixed clause for `query`. -/
def clauseForms (table key : String) (k : Nat) : List String :=
  if key = "url" ∨ key = "os" ∨ key = "browser" ∨ key = "device" ∨ key = "country" ∨
      key = "event_name" then
    ["and " ++ table ++ "." ++ key ++ "=" ++ placeholder k]
  else if key = "referrer" then ["and " ++ table ++ ".referrer like " ++ placeholder k]
  else if key = "domain" then
    ["and " ++ table ++ ".referrer not like " ++ placeholder k,
     "and " ++ table ++ ".referrer not like '/%'"]
  else if key = "query" then ["and " ++ table ++ ".url like '%?%'"]
  else []

/-- The parameters the clause of an eligible key pushes for the value `v`, or
`none` when the decoding throws: the decoded value for `url`, `os`, `browser`,
`device`, `country` and `event_name`, the decoded value between `%` for
`referrer`, the value as given inside `%://` and `/%` for `domain`, and no
parameter for `query`. -/
def operands (decode : Decoder) (key v : String) : Option (List Param) :=
  if key = "url" ∨ key = "os" ∨ key = "browser" ∨ key = "device" ∨ key = "country" ∨
      key = "event_name" then
    (decode v).map fun d => [Param.str d]
  else if key = "referrer" then (decode v).map fun d => [Param.str ("%" ++ d ++ "%")]
  else if key = "domain" then some [Param.str ("%://" ++ v ++ "/%")]
  else some []

/-- The operands of the active entries of a list of filter entries, in the
order of the list. -/
def operandsOf (decode : Decoder) : Filters → Option (List Param)
  | [] => some []
  | (key, value) :: rest =>
    match value.active? with
    | none => operandsOf decode rest
    | some v =>
      match operands decode key v, operandsOf decode rest with
      | some a, some b => some (a ++ b)
      | _, _ => none

/-- The active entries of a filter map with the strings they carry. -/
def activeEntries (filters : Filters) : List (String × String) :=
  filters.filterMap fun kv => kv.2.active?.map fun v => (kv.1, v)

/-- One equality clause on the session table for each entry, with consecutive
placeholders from `start` on. -/
def sessionClauses : Nat → List (String × String) → List String
  | _, [] => []
  | start, (key, _) :: rest =>
    ("and session." ++ key ++ "=" ++ placeholder start) :: sessionClauses (start + 1) rest

/-- The fragment `query` is made of clauses of active entries of `filters`, and
for each clause the operands of its entry stand in `params` at the position its
placeholder names. -/
def ClausesBound (decode : Decoder) (table : String) (filters : Filters) (query : String)
    (params : List Param) : Prop :=
  ∃ clauses : List String, query = "\n".intercalate clauses ∧
    ∀ c ∈ clauses, ∃ key v k, (key, FilterValue.str v) ∈ filters ∧
      c ∈ clauseForms table key k ∧
      ∃ ops, operands decode key v = some ops ∧ ∀ o ∈ ops, params.get? (k - 1) = some o

/-- The fragment `query` is made of clauses of active entries of `filters`
written for `table`. -/
def ClausesOf (table : String) (filters : Filters) (query : String) : Prop :=
  ∃ clauses : List String, query = "\n".intercalate clauses ∧
    ∀ c ∈ clauses, ∃ key v k, (key, FilterValue.str v) ∈ filters ∧
      c ∈ clauseForms table key k

/-! ## Lemmas on getFilterQuery -/

theorem clauseForms_startsWith (table key : String) (k : Nat) (c : String)
    (h : c ∈ clauseForms table key k) : ("and " ++ table ++ ".").data <+: c.data := by
  unfold clauseForms at h
  split_ifs at h <;> simp only [List.mem_cons, List.mem_singleton, List.not_mem_nil,
    or_false] at h
  · subst h; simp [String.data_append, List.append_assoc]
  · subst h; simp [String.data_append, List.append_assoc]
  · rcases h with h | h <;> subst h <;> simp [String.data_append, List.append_assoc]
  · subst h; simp [String.data_append, List.append_assoc]

theorem filterCase_sound (decode : Decoder) (table key v : String) (len : Nat)
    (cs : List String) (ps : List Param)
    (h : filterCase decode table key v len = some (cs, ps)) :
    ∀ c ∈ cs, eligible key table = true ∧ c ∈ clauseForms table key (len + 1) := by
  intro c hc
  unfold filterCase at h
  by_cases h1 : key = "url"
  · subst h1
    by_cases ht : table = "pageview" ∨ table = "event"
    · simp only [if_pos ht, if_true, Option.map_eq_some', Prod.mk.injEq] at h
      obtain ⟨d, -, rfl, -⟩ := h
      exact ⟨by simpa [eligible] using ht, by simpa [clauseForms] using hc⟩
    · simp only [if_neg ht, if_true, Option.some.injEq, Prod.mk.injEq] at h
      obtain ⟨rfl, -⟩ := h
      exact absurd hc (List.not_mem_nil c)
  by_cases h2 : key = "os" ∨ key = "browser" ∨ key = "device" ∨ key = "country"
  · by_cases ht : table = "session"
    · simp only [if_neg h1, if_pos h2, if_pos ht, Option.map_eq_some', Prod.mk.injEq] at h
      obtain ⟨d, -, rfl, -⟩ := h
      rcases h2 with rfl | rfl | rfl | rfl <;>
        exact ⟨by simpa [eligible] using ht, by simpa [clauseForms, ht] using hc⟩
    · simp only [if_neg h1, if_pos h2, if_neg ht, Option.some.injEq, Prod.mk.injEq] at h
      obtain ⟨rfl, -⟩ := h
      exact absurd hc (List.not_mem_nil c)
  by_cases h3 : key = "event_name"
  · subst h3
    by_cases ht : table = "event"
    · simp only [if_neg h1, if_neg h2, if_pos ht, if_true, Option.map_eq_some',
        Prod.mk.injEq] at h
      obtain ⟨d, -, rfl, -⟩ := h
      exact ⟨by simpa [eligible] using ht, by simpa [clauseForms, ht] using hc⟩
    · simp only [if_neg h1, if_neg h2, if_neg ht, if_true, Option.some.injEq,
        Prod.mk.injEq] at h
      obtain ⟨rfl, -⟩ := h
      exact absurd hc (List.not_mem_nil c)
  by_cases h4 : key = "referrer"
  · subst h4
    by_cases ht : table = "pageview" ∨ table = "event"
    · simp only [if_neg h1, if_neg h2, if_neg h3, if_pos ht, if_true, Option.map_eq_some',
        Prod.mk.injEq] at h
      obtain ⟨d, -, rfl, -⟩ := h
      exact ⟨by simpa [eligible] using ht, by simpa [clauseForms] using hc⟩
    · simp only [if_neg h1, if_neg h2, if_neg h3, if_neg ht, if_true, Option.some.injEq,
        Prod.mk.injEq] at h
      obtain ⟨rfl, -⟩ := h
      exact absurd hc (List.not_mem_nil c)
  by_cases h5 : key = "domain"
  · subst h5
    by_cases ht : table = "pageview"
    · simp only [if_neg h1, if_neg h2, if_neg h3, if_neg h4, if_pos ht, if_true,
        Option.some.injEq, Prod.mk.injEq] at h
      obtain ⟨rfl, -⟩ := h
      exact ⟨by simpa [eligible] using ht, by simpa [clauseForms, ht] using hc⟩
    · simp only [if_neg h1, if_neg h2, if_neg h3, if_neg h4, if_neg ht, if_true,
        Option.some.injEq, Prod.mk.injEq] at h
      obtain ⟨rfl, -⟩ := h
      exact absurd hc (List.not_mem_nil c)
  by_cases h6 : key = "query"
  · subst h6
    by_cases ht : table = "pageview"
    · simp only [if_neg h1, if_neg h2, if_neg h3, if_neg h4, if_neg h5, if_pos ht, if_true,
        Option.some.injEq, Prod.mk.injEq] at h
      obtain ⟨rfl, -⟩ := h
      exact ⟨by simpa [eligible] using ht, by simpa [clauseForms, ht] using hc⟩
    · simp only [if_neg h1, if_neg h2, if_neg h3, if_neg h4, if_neg h5, if_neg ht, if_true,
        Option.some.injEq, Prod.mk.injEq] at h
      obtain ⟨rfl, -⟩ := h
      exact absurd hc (List.not_mem_nil c)
  simp only [if_neg h1, if_neg h2, if_neg h3, if_neg h4, if_neg h5, if_neg h6,
    Option.some.injEq, Prod.mk.injEq] at h
  obtain ⟨rfl, -⟩ := h
  exact absurd hc (List.not_mem_nil c)

theorem getFilterClauses_sound (decode : Decoder) (table : String) :
    ∀ (filters : Filters) (arr : List String) (params : List Param)
      (arr' : List String) (params' : List Param),
      getFilterClauses decode table filters arr params = some (arr', params') →
      ∃ new, arr' = arr ++ new ∧ ∀ c ∈ new, ∃ key v k,
        (key, FilterValue.str v) ∈ filters ∧ eligible key table = true ∧
        c ∈ clauseForms table key k := by
  intro filters
  induction filters with
  | nil =>
    intro arr params arr' params' h
    simp only [getFilterClauses, Option.some.injEq, Prod.mk.injEq] at h
    exact ⟨[], by simp [h.1], by simp⟩
  | cons kv rest ih =>
    obtain ⟨key, filter⟩ := kv
    intro arr params arr' params' h
    cases filter with
    | undefined =>
      simp only [getFilterClauses, FilterValue.active?] at h
      obtain ⟨new, h1, h2⟩ := ih arr params arr' params' h
      refine ⟨new, h1, fun c hc => ?_⟩
      obtain ⟨k, v, n, hm, he⟩ := h2 c hc
      exact ⟨k, v, n, List.mem_cons_of_mem _ hm, he⟩
    | ignored =>
      simp only [getFilterClauses, FilterValue.active?] at h
      obtain ⟨new, h1, h2⟩ := ih arr params arr' params' h
      refine ⟨new, h1, fun c hc => ?_⟩
      obtain ⟨k, v, n, hm, he⟩ := h2 c hc
      exact ⟨k, v, n, List.mem_cons_of_mem _ hm, he⟩
    | str v =>
      simp only [getFilterClauses, FilterValue.active?] at h
      cases hfc : filterCase decode table key v params.length with
      | none => simp [hfc] at h
      | some r =>
        obtain ⟨cs, ps⟩ := r
        simp only [hfc] at h
        obtain ⟨new, h1, h2⟩ := ih (arr ++ cs) (params ++ ps) arr' params' h
        refine ⟨cs ++ new, by simp [h1], fun c hc => ?_⟩
        rcases List.mem_append.1 hc with hc | hc
        · obtain ⟨he, hf⟩ := filterCase_sound decode table key v params.length cs ps hfc c hc
          exact ⟨key, v, params.length + 1, List.mem_cons_self _ _, he, hf⟩
        · obtain ⟨k, w, n, hm, he⟩ := h2 c hc
          exact ⟨k, w, n, List.mem_cons_of_mem _ hm, he⟩

/-! ## Lemmas on the textual replacement -/

theorem splitFirst_none_of_absent (pat : List Char) :
    ∀ s : List Char, ¬ pat <:+: s → splitFirst pat s = none := by
  intro s
  induction s with
  | nil =>
    intro h
    have hp : pat ≠ [] := fun e => h (e ▸ List.infix_refl _)
    simp [splitFirst, hp]
  | cons c cs ih =>
    intro h
    have h1 : ¬ pat <+: c :: cs := fun hp => h hp.isInfix
    have h2 : ¬ pat <:+: cs := fun hp =>
      h (hp.trans (List.suffix_cons c cs).isInfix)
    have h3 : pat.isPrefixOf (c :: cs) = false := by
      rw [Bool.eq_false_iff]
      intro e
      exact h1 (List.isPrefixOf_iff_prefix.1 e)
    simp [splitFirst, h3, ih h2]

theorem splitFirst_at_first (c : Char) (ds post : List Char) :
    ∀ pre : List Char, c ∉ pre →
      splitFirst (c :: ds) (pre ++ (c :: ds) ++ post) = some (pre, post) := by
  intro pre
  induction pre with
  | nil =>
    intro _
    have h : (c :: ds).isPrefixOf (c :: (ds ++ post)) = true :=
      List.isPrefixOf_iff_prefix.2 ⟨post, by simp⟩
    simp only [List.nil_append, List.cons_append, splitFirst, h, if_true]
    simp
  | cons x pre ih =>
    intro hx
    have hne : x ≠ c := fun e => hx (e ▸ List.mem_cons_self _ _)
    have hpre : c ∉ pre := fun e => hx (List.mem_cons_of_mem _ e)
    have h : (c :: ds).isPrefixOf (x :: (pre ++ (c :: ds) ++ post)) = false := by
      rw [Bool.eq_false_iff]
      intro e
      have := List.isPrefixOf_iff_prefix.1 e
      obtain ⟨t, ht⟩ := this
      simp only [List.cons_append, List.cons.injEq] at ht
      exact hne ht.1.symm
    show splitFirst (c :: ds) (x :: (pre ++ (c :: ds) ++ post)) = some (x :: pre, post)
    rw [splitFirst, h, ih hpre]
    simp

theorem getSubstitution_of_no_dollar (matched before after : List Char) :
    ∀ repl : List Char, '$' ∉ repl → getSubstitution matched before after repl = repl := by
  intro repl
  induction repl with
  | nil => intro _; rfl
  | cons c rest ih =>
    intro h
    have hc : c ≠ '$' := fun e => h (e ▸ List.mem_cons_self _ _)
    have hr : '$' ∉ rest := fun e => h (List.mem_cons_of_mem _ e)
    cases rest with
    | nil => rfl
    | cons d rest => rw [getSubstitution, if_neg hc, ih hr]

theorem getSubstitution_of_no_pattern (matched before after : List Char) :
    ∀ repl : List Char, hasSpecialPattern repl = false →
      getSubstitution matched before after repl = repl := by
  intro repl
  induction repl with
  | nil => intro _; rfl
  | cons c rest ih =>
    intro h
    cases rest with
    | nil => rfl
    | cons d rest =>
      simp only [hasSpecialPattern, Bool.or_eq_false_iff, Bool.and_eq_false_iff,
        beq_eq_false_iff_ne, ne_eq] at h
      obtain ⟨h1, h2⟩ := h
      by_cases hc : c = '$'
      · have h3 := h1.resolve_left (fun e => e hc)
        obtain ⟨⟨⟨hd1, hd2⟩, hd3⟩, hd4⟩ := h3
        rw [getSubstitution, if_pos hc, if_neg hd1, if_neg hd2, if_neg hd3, if_neg hd4,
          ih h2]
      · rw [getSubstitution, if_neg hc, ih h2]

theorem hasSpecialPattern_of_no_dollar :
    ∀ repl : List Char, '$' ∉ repl → hasSpecialPattern repl = false := by
  intro repl
  induction repl with
  | nil => intro _; rfl
  | cons c rest ih =>
    intro h
    have hc : c ≠ '$' := fun e => h (e ▸ List.mem_cons_self _ _)
    have hr : '$' ∉ rest := fun e => h (List.mem_cons_of_mem _ e)
    cases rest with
    | nil => rfl
    | cons d rest =>
      simp only [hasSpecialPattern, Bool.or_eq_false_iff, Bool.and_eq_false_iff,
        beq_eq_false_iff_ne, ne_eq]
      exact ⟨Or.inl hc, ih hr⟩

theorem jsReplace_of_absent (s pat repl : List Char) (h : ¬ pat <:+: s) :
    jsReplace s pat repl = s := by
  simp [jsReplace, splitFirst_none_of_absent pat s h]

theorem jsReplace_at_first (c : Char) (ds pre post repl : List Char) (hc : c ∉ pre) :
    jsReplace (pre ++ (c :: ds) ++ post) (c :: ds) repl =
      pre ++ getSubstitution (c :: ds) pre post repl ++ post := by
  simp only [jsReplace, splitFirst_at_first c ds post pre hc]

theorem replaceQueryFrom_of_absent :
    ∀ (params : List Param) (i : Nat) (s : List Char),
      (∀ k, i < k → k ≤ i + params.length → ¬ (placeholder k).data <:+: s) →
      replaceQueryFrom i s params = s := by
  intro params
  induction params with
  | nil => intro i s _; rfl
  | cons a rest ih =>
    intro i s h
    have h1 : ¬ (placeholder (i + 1)).data <:+: s :=
      h (i + 1) (Nat.lt_succ_self i) (by simp)
    simp only [replaceQueryFrom, jsReplace_of_absent _ _ _ h1]
    apply ih
    intro k hk1 hk2
    exact h k (by omega) (by simp only [List.length_cons]; omega)

/-! ## Decimal numerals -/

theorem toString_nat_data (k : Nat) : (toString k).data = Nat.toDigits 10 k := rfl

theorem placeholder_data (k : Nat) : (placeholder k).data = '$' :: Nat.toDigits 10 k := by
  simp [placeholder, toString_nat_data]

theorem digitChar_isDigit (m : Nat) (h : m < 10) : (Nat.digitChar m).isDigit = true := by
  interval_cases m <;> rfl

theorem digitChar_value (m : Nat) (h : m < 10) : (Nat.digitChar m).toNat - 48 = m := by
  interval_cases m <;> rfl

theorem toDigitsCore_isDigit :
    ∀ (fuel n : Nat) (ds : List Char), (∀ c ∈ ds, c.isDigit = true) →
      ∀ c ∈ Nat.toDigitsCore 10 fuel n ds, c.isDigit = true := by
  intro fuel
  induction fuel with
  | zero => intro n ds h; simpa [Nat.toDigitsCore] using h
  | succ fuel ih =>
    intro n ds h
    have hd : (Nat.digitChar (n % 10)).isDigit = true :=
      digitChar_isDigit _ (Nat.mod_lt _ (by norm_num))
    have h2 : ∀ c ∈ Nat.digitChar (n % 10) :: ds, c.isDigit = true := by
      intro c hc
      rcases List.mem_cons.1 hc with e | e
      · exact e ▸ hd
      · exact h c e
    simp only [Nat.toDigitsCore]
    split_ifs
    · exact h2
    · exact ih _ _ h2

theorem toDigits_isDigit (k : Nat) : ∀ c ∈ Nat.toDigits 10 k, c.isDigit = true :=
  toDigitsCore_isDigit _ _ [] (by simp)

theorem toDigitsCore_ne_nil :
    ∀ (fuel n : Nat) (ds : List Char), ds ≠ [] → Nat.toDigitsCore 10 fuel n ds ≠ [] := by
  intro fuel
  induction fuel with
  | zero => intro n ds h; simpa [Nat.toDigitsCore] using h
  | succ fuel ih =>
    intro n ds _
    simp only [Nat.toDigitsCore]
    split_ifs
    · simp
    · exact ih _ _ (by simp)

theorem toDigits_ne_nil (k : Nat) : Nat.toDigits 10 k ≠ [] := by
  unfold Nat.toDigits
  simp only [Nat.toDigitsCore]
  split_ifs
  · simp
  · exact toDigitsCore_ne_nil _ _ _ (by simp)

theorem toDigitsCore_value :
    ∀ (fuel n : Nat) (ds : List Char), n < fuel →
      (Nat.toDigitsCore 10 fuel n ds).foldl (fun acc c => 10 * acc + (c.toNat - 48)) 0 =
        ds.foldl (fun acc c => 10 * acc + (c.toNat - 48)) n := by
  intro fuel
  induction fuel with
  | zero => intro n ds h; omega
  | succ fuel ih =>
    intro n ds h
    have hv : (Nat.digitChar (n % 10)).toNat - 48 = n % 10 :=
      digitChar_value _ (Nat.mod_lt _ (by norm_num))
    simp only [Nat.toDigitsCore]
    split_ifs with h0
    · have hn : n % 10 = n := by omega
      rw [hn] at hv
      simp only [List.foldl_cons, Nat.mul_zero, Nat.zero_add, hn, hv]
    · rw [ih (n / 10) _ (by omega)]
      simp only [List.foldl_cons, hv]
      congr 1
      omega

theorem digitsValue_toDigits (k : Nat) : digitsValue (Nat.toDigits 10 k) = k := by
  unfold digitsValue Nat.toDigits
  rw [toDigitsCore_value _ _ _ (Nat.lt_succ_self k)]
  rfl

theorem dollar_not_isDigit : Char.isDigit '$' = false := by decide

theorem dollar_not_mem_of_isDigit (ds : List Char) (h : ∀ c ∈ ds, c.isDigit = true) :
    '$' ∉ ds := by
  intro hm
  have := h _ hm
  rw [dollar_not_isDigit] at this
  exact Bool.noConfusion this

theorem placeholderIndex_toDigits (k : Nat) (hk : 0 < k) :
    placeholderIndex (Nat.toDigits 10 k) = some k := by
  unfold placeholderIndex
  rw [digitsValue_toDigits, toString_nat_data]
  simp [hk]

/-! ## Digit runs of a text -/

theorem noLeadingDigit_nil : NoLeadingDigit [] := by
  intro c hc
  simp at hc

theorem noLeadingDigit_cons (c : Char) (cs : List Char) (h : c.isDigit = false) :
    NoLeadingDigit (c :: cs) := by
  intro x hx
  simp only [List.head?_cons, Option.mem_def, Option.some.injEq] at hx
  exact hx ▸ h

theorem takeWhile_digits_append (ds rest : List Char) (hd : ∀ c ∈ ds, c.isDigit = true)
    (hr : NoLeadingDigit rest) : (ds ++ rest).takeWhile Char.isDigit = ds := by
  induction ds with
  | nil =>
    cases rest with
    | nil => rfl
    | cons x xs =>
      have : x.isDigit = false := hr x (by simp)
      simp [List.takeWhile, this]
  | cons d ds ih =>
    have h1 : d.isDigit = true := hd d (List.mem_cons_self _ _)
    have h2 : ∀ c ∈ ds, c.isDigit = true := fun c hc => hd c (List.mem_cons_of_mem _ hc)
    simp [List.takeWhile, h1, ih h2]

theorem dropWhile_noLeadingDigit (s : List Char) :
    NoLeadingDigit (s.dropWhile Char.isDigit) := by
  induction s with
  | nil => exact noLeadingDigit_nil
  | cons c cs ih =>
    by_cases h : c.isDigit = true
    · simpa [List.dropWhile, h] using ih
    · have h2 : c.isDigit = false := by simpa using h
      simpa [List.dropWhile, h2] using noLeadingDigit_cons c cs h2

theorem dollarRuns_append_of_no_dollar (t s : List Char) (h : '$' ∉ t) :
    dollarRuns (t ++ s) = dollarRuns s := by
  induction t with
  | nil => rfl
  | cons c t ih =>
    have hc : c ≠ '$' := fun e => h (e ▸ List.mem_cons_self _ _)
    have ht : '$' ∉ t := fun e => h (List.mem_cons_of_mem _ e)
    simp [dollarRuns, hc, ih ht]

theorem dollarRuns_token (ds rest : List Char) (hd : ∀ c ∈ ds, c.isDigit = true)
    (hr : NoLeadingDigit rest) :
    dollarRuns ('$' :: (ds ++ rest)) = ds :: dollarRuns rest := by
  simp only [dollarRuns, if_true, takeWhile_digits_append ds rest hd hr]
  rw [dollarRuns_append_of_no_dollar ds rest (dollar_not_mem_of_isDigit ds hd)]

theorem dollarRuns_eq_nil (s : List Char) (h : dollarRuns s = []) : '$' ∉ s := by
  induction s with
  | nil => simp
  | cons c cs ih =>
    by_cases hc : c = '$'
    · simp [dollarRuns, hc] at h
    · simp only [dollarRuns, if_neg hc] at h
      intro hm
      rcases List.mem_cons.1 hm with e | e
      · exact hc e.symm
      · exact ih h e

theorem dollarRuns_of_no_dollar (s : List Char) (h : '$' ∉ s) : dollarRuns s = [] := by
  have := dollarRuns_append_of_no_dollar s [] h
  simpa [dollarRuns] using this

/-- A text with at least one `$` splits at its first `$`. -/
theorem dollarRuns_split (s : List Char) (r : List Char) (rs : List (List Char))
    (h : dollarRuns s = r :: rs) :
    ∃ t rest, s = t ++ '$' :: (r ++ rest) ∧ '$' ∉ t ∧ (∀ c ∈ r, c.isDigit = true) ∧
      NoLeadingDigit rest ∧ dollarRuns rest = rs := by
  induction s with
  | nil => simp [dollarRuns] at h
  | cons c cs ih =>
    by_cases hc : c = '$'
    · subst hc
      simp only [dollarRuns, if_true, List.cons.injEq] at h
      obtain ⟨h1, h2⟩ := h
      have hdig : ∀ x ∈ cs.takeWhile Char.isDigit, x.isDigit = true :=
        fun x hx => List.mem_takeWhile_imp hx
      refine ⟨[], cs.dropWhile Char.isDigit, ?_, by simp, ?_, dropWhile_noLeadingDigit cs, ?_⟩
      · rw [← h1, List.takeWhile_append_dropWhile]; rfl
      · rw [← h1]; exact hdig
      · rw [← h2]
        conv_rhs => rw [← List.takeWhile_append_dropWhile Char.isDigit cs]
        rw [dollarRuns_append_of_no_dollar _ _ (dollar_not_mem_of_isDigit _ hdig)]
    · simp only [dollarRuns, if_neg hc] at h
      obtain ⟨t, rest, h1, h2, h3, h4, h5⟩ := ih h
      refine ⟨c :: t, rest, by simp [h1], ?_, h3, h4, h5⟩
      intro hm
      rcases List.mem_cons.1 hm with e | e
      · exact hc e.symm
      · exact h2 e

/-! ## Lemmas on the one-pass substitution -/

theorem onePass_append_of_no_dollar (params : List Param) (t s : List Char) (h : '$' ∉ t) :
    onePass params none (t ++ s) = t ++ onePass params none s := by
  induction t with
  | nil => rfl
  | cons c t ih =>
    have hc : c ≠ '$' := fun e => h (e ▸ List.mem_cons_self _ _)
    have ht : '$' ∉ t := fun e => h (List.mem_cons_of_mem _ e)
    simp [onePass, hc, ih ht]

theorem onePass_pending_digits (params : List Param) (rest : List Char) :
    ∀ (ds acc : List Char), (∀ c ∈ ds, c.isDigit = true) →
      onePass params (some acc) (ds ++ rest) = onePass params (some (acc ++ ds)) rest := by
  intro ds
  induction ds with
  | nil => intro acc _; simp
  | cons d ds ih =>
    intro acc hd
    have h1 : d.isDigit = true := hd d (List.mem_cons_self _ _)
    have h2 : ∀ c ∈ ds, c.isDigit = true := fun c hc => hd c (List.mem_cons_of_mem _ hc)
    simp [onePass, h1, ih (acc ++ [d]) h2]

theorem onePass_pending_stop (params : List Param) (acc rest : List Char)
    (hr : NoLeadingDigit rest) :
    onePass params (some acc) rest = resolveToken params acc ++ onePass params none rest := by
  cases rest with
  | nil => simp [onePass]
  | cons c cs =>
    have hc : c.isDigit = false := hr c (by simp)
    simp [onePass, hc]

theorem onePass_token (params : List Param) (t ds rest : List Char) (ht : '$' ∉ t)
    (hd : ∀ c ∈ ds, c.isDigit = true) (hr : NoLeadingDigit rest) :
    onePass params none (t ++ '$' :: (ds ++ rest)) =
      t ++ (resolveToken params ds ++ onePass params none rest) := by
  rw [onePass_append_of_no_dollar params t _ ht]
  simp only [onePass, if_true]
  rw [onePass_pending_digits params rest ds [] hd, List.nil_append,
    onePass_pending_stop params ds rest hr]

/-! ## Sequential replacement against one pass -/

theorem toString_int_data (n : Int) : '$' ∉ (toString n).data := by
  cases n with
  | ofNat m =>
    show '$' ∉ (toString m).data
    rw [toString_nat_data]
    exact dollar_not_mem_of_isDigit _ (toDigits_isDigit m)
  | negSucc m =>
    show '$' ∉ ("-" ++ toString (m + 1)).data
    rw [String.data_append, toString_nat_data]
    intro h
    rcases List.mem_append.1 h with e | e
    · simp at e
    · exact dollar_not_mem_of_isDigit _ (toDigits_isDigit _) e

theorem literal_str_no_dollar (v : String) (h : '$' ∉ v.data) :
    '$' ∉ (Param.str v).literal.data := by
  simp only [Param.literal, String.data_append]
  intro hm
  simp only [List.mem_append] at hm
  rcases hm with (e | e) | e
  · simp at e
  · exact h e
  · simp at e

theorem literal_int_no_dollar (n : Int) (hn : n.natAbs < 9007199254740992) :
    '$' ∉ (Param.int n hn).literal.data :=
  toString_int_data n

theorem not_infix_of_no_dollar (ds s : List Char) (h : '$' ∉ s) : ¬ ('$' :: ds) <:+: s := by
  intro hi
  exact h (hi.subset (List.mem_cons_self _ _))

theorem resolveToken_at (done rest : List Param) (a : Param) :
    resolveToken (done ++ a :: rest) (Nat.toDigits 10 (done.length + 1)) = a.literal.data := by
  unfold resolveToken
  rw [placeholderIndex_toDigits _ (Nat.succ_pos _)]
  have : (done ++ a :: rest).get? (done.length + 1 - 1) = some a := by
    rw [Nat.add_sub_cancel, List.get?_eq_getElem?, List.getElem?_append_right (le_refl _)]
    simp
  simp only [this]

theorem resolveToken_beyond (params : List Param) (j : Nat) (h : params.length < j) :
    resolveToken params (Nat.toDigits 10 j) = '$' :: Nat.toDigits 10 j := by
  unfold resolveToken
  rw [placeholderIndex_toDigits _ (by omega)]
  have : params.get? (j - 1) = none := List.get?_eq_none.2 (by omega)
  simp only [this]

theorem onePass_of_unresolved (params : List Param) :
    ∀ (runs : List (List Char)) (body : List Char), dollarRuns body = runs →
      (∀ r ∈ runs, resolveToken params r = '$' :: r) → onePass params none body = body := by
  intro runs
  induction runs with
  | nil =>
    intro body h _
    have := onePass_append_of_no_dollar params body [] (dollarRuns_eq_nil body h)
    simpa [onePass] using this
  | cons r rs ih =>
    intro body h hres
    obtain ⟨t, rest, h1, h2, h3, h4, h5⟩ := dollarRuns_split body r rs h
    rw [h1, onePass_token params t r rest h2 h3 h4, hres r (List.mem_cons_self _ _),
      ih rest h5 (fun x hx => hres x (List.mem_cons_of_mem _ hx))]
    simp

theorem onePass_no_dollar_of_resolved (params : List Param) :
    ∀ (runs : List (List Char)) (body : List Char), dollarRuns body = runs →
      (∀ r ∈ runs, '$' ∉ resolveToken params r) → '$' ∉ onePass params none body := by
  intro runs
  induction runs with
  | nil =>
    intro body h _
    have := onePass_append_of_no_dollar params body [] (dollarRuns_eq_nil body h)
    simp only [List.append_nil, onePass] at this
    rw [this]
    exact dollarRuns_eq_nil body h
  | cons r rs ih =>
    intro body h hres
    obtain ⟨t, rest, h1, h2, h3, h4, h5⟩ := dollarRuns_split body r rs h
    rw [h1, onePass_token params t r rest h2 h3 h4]
    intro hm
    simp only [List.mem_append] at hm
    rcases hm with e | e | e
    · exact h2 e
    · exact hres r (List.mem_cons_self _ _) e
    · exact ih rest h5 (fun x hx => hres x (List.mem_cons_of_mem _ hx)) e

/-- The sequential replacement agrees with the one-pass substitution on a text
whose remaining `$` are the placeholders `$(i+1)`, ..., `$(i+m)` in this order,
when the literals to insert contain no `$`. -/
theorem replaceQueryFrom_eq_onePass :
    ∀ (remaining done : List Param) (pre body : List Char) (m : Nat),
      '$' ∉ pre → (∀ a ∈ remaining, '$' ∉ a.literal.data) →
      dollarRuns body = (List.range' (done.length + 1) m).map (Nat.toDigits 10) →
      replaceQueryFrom done.length (pre ++ body) remaining =
        pre ++ onePass (done ++ remaining) none body := by
  intro remaining
  induction remaining with
  | nil =>
    intro done pre body m _ _ hruns
    simp only [replaceQueryFrom, List.append_nil]
    rw [onePass_of_unresolved done _ body hruns]
    intro r hr
    obtain ⟨j, hj, rfl⟩ := List.mem_map.1 hr
    have := (List.mem_range'_1.1 hj).1
    exact resolveToken_beyond done j (by omega)
  | cons a rest ih =>
    intro done pre body m hpre hlit hruns
    have hla : '$' ∉ a.literal.data := hlit a (List.mem_cons_self _ _)
    have hlr : ∀ x ∈ rest, '$' ∉ x.literal.data :=
      fun x hx => hlit x (List.mem_cons_of_mem _ hx)
    have hdone : done ++ a :: rest = (done ++ [a]) ++ rest := by simp
    have hlen : (done ++ [a]).length = done.length + 1 := by simp
    cases m with
    | zero =>
      have hb : '$' ∉ body := dollarRuns_eq_nil body (by simpa using hruns)
      have hnot : ¬ (placeholder (done.length + 1)).data <:+: pre ++ body := by
        rw [placeholder_data]
        apply not_infix_of_no_dollar
        intro hm
        rcases List.mem_append.1 hm with e | e
        · exact hpre e
        · exact hb e
      simp only [replaceQueryFrom, jsReplace_of_absent _ _ _ hnot]
      rw [hdone, ← hlen]
      exact ih (done ++ [a]) pre body 0 hpre hlr (by simpa using hruns)
    | succ m =>
      rw [List.range'_succ, List.map_cons] at hruns
      obtain ⟨t, tail, h1, h2, h3, h4, h5⟩ := dollarRuns_split body _ _ hruns
      have hpt : '$' ∉ pre ++ t := by
        intro hm
        rcases List.mem_append.1 hm with e | e
        · exact hpre e
        · exact h2 e
      have hstep : jsReplace (pre ++ body) (placeholder (done.length + 1)).data
          a.literal.data = (pre ++ t ++ a.literal.data) ++ tail := by
        rw [placeholder_data, h1]
        have := jsReplace_at_first '$' (Nat.toDigits 10 (done.length + 1)) (pre ++ t) tail
          a.literal.data hpt
        simp only [List.append_assoc, List.cons_append] at this ⊢
        rw [this, getSubstitution_of_no_dollar _ _ _ _ hla]
      have hpre2 : '$' ∉ pre ++ t ++ a.literal.data := by
        intro hm
        rcases List.mem_append.1 hm with e | e
        · exact hpt e
        · exact hla e
      simp only [replaceQueryFrom, hstep]
      rw [← hlen, ih (done ++ [a]) _ tail m hpre2 hlr (by rw [hlen]; exact h5), h1,
        onePass_token _ t _ tail h2 h3 h4, resolveToken_at done rest a, hdone]
      simp [List.append_assoc]

/-! ## A placeholder beyond the parameter list -/

theorem splitFirst_cons_of_mismatch (pat : List Char) (c : Char) (cs : List Char)
    (h : ¬ pat.isPrefixOf (c :: cs) = true) :
    splitFirst pat (c :: cs) = (splitFirst pat cs).map fun r => (c :: r.1, r.2) := by
  rw [splitFirst, if_neg h]

theorem splitFirst_spec (pat : List Char) :
    ∀ (s a b : List Char), splitFirst pat s = some (a, b) → s = a ++ pat ++ b := by
  intro s
  induction s with
  | nil =>
    intro a b h
    by_cases hp : pat = []
    · simp only [splitFirst, if_pos hp, Option.some.injEq, Prod.mk.injEq] at h
      simp [← h.1, ← h.2, hp]
    · simp [splitFirst, hp] at h
  | cons c cs ih =>
    intro a b h
    by_cases hpre : pat.isPrefixOf (c :: cs) = true
    · simp only [splitFirst, hpre, if_true, Option.some.injEq, Prod.mk.injEq] at h
      obtain ⟨t, ht⟩ := List.isPrefixOf_iff_prefix.1 hpre
      rw [← h.1, ← h.2, ← ht]
      simp
    · rw [splitFirst_cons_of_mismatch _ _ _ hpre] at h
      simp only [Option.map_eq_some', Prod.mk.injEq] at h
      obtain ⟨⟨a', b'⟩, h1, h2, h3⟩ := h
      have := ih a' b' h1
      simp only at h2 h3
      rw [← h2, ← h3, this]
      simp

theorem splitFirst_append_of_some (c : Char) (ds x : List Char) :
    ∀ (p a b : List Char), splitFirst (c :: ds) p = some (a, b) →
      splitFirst (c :: ds) (p ++ x) = some (a, b ++ x) := by
  intro p
  induction p with
  | nil => intro a b h; simp [splitFirst] at h
  | cons y p ih =>
    intro a b h
    by_cases hpre : (c :: ds).isPrefixOf (y :: p) = true
    · simp only [splitFirst, hpre, if_true, Option.some.injEq, Prod.mk.injEq] at h
      have hp := List.isPrefixOf_iff_prefix.1 hpre
      have hpre2 : (c :: ds).isPrefixOf (y :: (p ++ x)) = true :=
        List.isPrefixOf_iff_prefix.2 (hp.trans ⟨x, by simp⟩)
      have hlen : (c :: ds).length ≤ (y :: p).length := hp.length_le
      show splitFirst (c :: ds) (y :: (p ++ x)) = some (a, b ++ x)
      rw [splitFirst, if_pos hpre2, ← h.1, ← h.2, ← List.cons_append,
        List.drop_append_of_le_length hlen]
    · rw [splitFirst_cons_of_mismatch _ _ _ hpre] at h
      simp only [Option.map_eq_some', Prod.mk.injEq] at h
      obtain ⟨⟨a', b'⟩, h1, h2, h3⟩ := h
      simp only at h2 h3
      have hsp := splitFirst_spec _ _ _ _ h1
      have hpre2 : (c :: ds).isPrefixOf (y :: (p ++ x)) = false := by
        rw [Bool.eq_false_iff]
        intro e
        have h4 : c :: ds <+: y :: p ++ x := List.isPrefixOf_iff_prefix.1 e
        have h5 : y :: p <+: y :: p ++ x := ⟨x, rfl⟩
        have hlen : (c :: ds).length ≤ (y :: p).length := by
          rw [hsp]
          simp only [List.length_cons, List.length_append]
          omega
        exact hpre (List.isPrefixOf_iff_prefix.2 (List.prefix_of_prefix_length_le h4 h5 hlen))
      show splitFirst (c :: ds) (y :: (p ++ x)) = some (a, b ++ x)
      rw [splitFirst, hpre2, ih a' b' h1, ← h2, ← h3]
      simp

theorem splitFirst_skip_digits (ds q : List Char) :
    ∀ js : List Char, (∀ c ∈ js, c.isDigit = true) →
      splitFirst ('$' :: ds) (js ++ q) =
        (splitFirst ('$' :: ds) q).map fun r => (js ++ r.1, r.2) := by
  intro js
  induction js with
  | nil => intro _; simp
  | cons y js ih =>
    intro h
    have hy : y.isDigit = true := h y (List.mem_cons_self _ _)
    have hne : '$' ≠ y := by
      intro e
      rw [← e, dollar_not_isDigit] at hy
      exact Bool.noConfusion hy
    have hpre : ('$' :: ds).isPrefixOf (y :: (js ++ q)) = false := by
      rw [Bool.eq_false_iff]
      intro e
      have := List.isPrefixOf_iff_prefix.1 e
      rw [List.cons_prefix_cons] at this
      exact hne this.1
    show splitFirst ('$' :: ds) (y :: (js ++ q)) = _
    rw [splitFirst, hpre, ih (fun c hc => h c (List.mem_cons_of_mem _ hc))]
    cases splitFirst ('$' :: ds) q <;> simp

theorem splitFirst_skip_of_none (ds r : List Char) (hds : ∀ c ∈ ds, c.isDigit = true) :
    ∀ p : List Char, splitFirst ('$' :: ds) p = none →
      splitFirst ('$' :: ds) (p ++ '$' :: r) =
        (splitFirst ('$' :: ds) ('$' :: r)).map fun x => (p ++ x.1, x.2) := by
  intro p
  induction p with
  | nil => intro _; simp
  | cons y p ih =>
    intro h
    by_cases hpre : ('$' :: ds).isPrefixOf (y :: p) = true
    · simp [splitFirst, hpre] at h
    · rw [splitFirst_cons_of_mismatch _ _ _ hpre] at h
      simp only [Option.map_eq_none'] at h
      have hpre2 : ('$' :: ds).isPrefixOf (y :: (p ++ '$' :: r)) = false := by
        rw [Bool.eq_false_iff]
        intro e
        have h1 := List.isPrefixOf_iff_prefix.1 e
        rw [List.cons_prefix_cons] at h1
        obtain ⟨hy, h2⟩ := h1
        apply hpre
        rw [List.isPrefixOf_iff_prefix, List.cons_prefix_cons]
        refine ⟨hy, ?_⟩
        rcases List.prefix_or_prefix_of_prefix h2 (⟨'$' :: r, rfl⟩ : p <+: p ++ '$' :: r)
          with h3 | h3
        · exact h3
        · obtain ⟨k, hk⟩ := h3
          rw [← hk, List.prefix_append_right_inj] at h2
          cases k with
          | nil => rw [← hk]; simp
          | cons z k =>
            rw [List.cons_prefix_cons] at h2
            have hz : z ∈ ds := by rw [← hk]; simp
            have := hds z hz
            rw [h2.1, dollar_not_isDigit] at this
            exact Bool.noConfusion this
      show splitFirst ('$' :: ds) (y :: (p ++ '$' :: r)) = _
      rw [splitFirst, hpre2, ih h]
      cases splitFirst ('$' :: ds) ('$' :: r) <;> simp

theorem foldl_digits_ge (ks : List Char) :
    ∀ a : Nat, a ≤ ks.foldl (fun acc c => 10 * acc + (c.toNat - 48)) a := by
  induction ks with
  | nil => intro a; exact le_refl a
  | cons k ks ih =>
    intro a
    simp only [List.foldl_cons]
    exact le_trans (by omega) (ih _)

/-- A numeral that is not a prefix of the numeral of a larger number is not a
prefix of any text that begins with that numeral. -/
theorem toDigits_not_prefix_append (k j : Nat) (hkj : k < j)
    (h : ¬ Nat.toDigits 10 k <+: Nat.toDigits 10 j) (q : List Char) :
    ¬ Nat.toDigits 10 k <+: Nat.toDigits 10 j ++ q := by
  intro hp
  rcases List.prefix_or_prefix_of_prefix hp (⟨q, rfl⟩ : Nat.toDigits 10 j <+: _) with h1 | h1
  · exact h h1
  · obtain ⟨t, ht⟩ := h1
    have hv := digitsValue_toDigits k
    rw [← ht] at hv
    unfold digitsValue at hv
    rw [List.foldl_append] at hv
    have hj := digitsValue_toDigits j
    unfold digitsValue at hj
    rw [hj] at hv
    have := foldl_digits_ge t j
    omega

theorem splitFirst_some_of_occurs (pat : List Char) :
    ∀ s : List Char, pat <:+: s → ∃ r, splitFirst pat s = some r := by
  intro s
  induction s with
  | nil =>
    intro h
    have hp : pat = [] := List.eq_nil_of_infix_nil h
    exact ⟨([], []), by simp [splitFirst, hp]⟩
  | cons c cs ih =>
    intro h
    by_cases hpre : pat.isPrefixOf (c :: cs) = true
    · exact ⟨_, by rw [splitFirst, if_pos hpre]⟩
    · rw [List.infix_cons_iff] at h
      rcases h with h | h
      · exact absurd (List.isPrefixOf_iff_prefix.2 h) hpre
      · obtain ⟨r, hr⟩ := ih h
        exact ⟨_, by rw [splitFirst_cons_of_mismatch _ _ _ hpre, hr]; rfl⟩

theorem not_occurs_of_splitFirst_none (pat s : List Char) (h : splitFirst pat s = none) :
    ¬ pat <:+: s := by
  intro hi
  obtain ⟨r, hr⟩ := splitFirst_some_of_occurs pat s hi
  rw [h] at hr
  exact Option.noConfusion hr

/-- The placeholder `$js` after the text `p` survives the replacements when, at
each step, the numeral searched for either cannot begin a text that starts with
`js`, or still occurs in what the earlier steps have made of `p`. -/
theorem replaceQueryFrom_passthrough (js : List Char) (hjs : ∀ c ∈ js, c.isDigit = true) :
    ∀ (params : List Param) (i : Nat) (p q : List Char),
      (∀ a ∈ params, hasSpecialPattern a.literal.data = false) →
      (∀ m, m < params.length →
        (∀ x, ¬ Nat.toDigits 10 (i + m + 1) <+: js ++ x) ∨
        ('$' :: Nat.toDigits 10 (i + m + 1)) <:+: replaceQueryFrom i p (params.take m)) →
      ∃ q', replaceQueryFrom i (p ++ '$' :: (js ++ q)) params =
        replaceQueryFrom i p params ++ '$' :: (js ++ q') := by
  intro params
  induction params with
  | nil => intro i p q _ _; exact ⟨q, rfl⟩
  | cons a rest ih =>
    intro i p q hlit hpre
    have hla : hasSpecialPattern a.literal.data = false := hlit a (List.mem_cons_self _ _)
    have hlr : ∀ x ∈ rest, hasSpecialPattern x.literal.data = false :=
      fun x hx => hlit x (List.mem_cons_of_mem _ hx)
    have hpre' : ∀ m, m < rest.length →
        (∀ x, ¬ Nat.toDigits 10 (i + 1 + m + 1) <+: js ++ x) ∨
        ('$' :: Nat.toDigits 10 (i + 1 + m + 1)) <:+:
          replaceQueryFrom (i + 1)
            (jsReplace p (placeholder (i + 1)).data a.literal.data) (rest.take m) := by
      intro m hm
      have h := hpre (m + 1) (by simp only [List.length_cons]; omega)
      have e : i + (m + 1) + 1 = i + 1 + m + 1 := by omega
      rw [e] at h
      simpa only [List.take_succ_cons, replaceQueryFrom] using h
    have hdig := toDigits_isDigit (i + 1)
    have h0 := hpre 0 (by simp)
    simp only [Nat.add_zero, List.take_zero, replaceQueryFrom] at h0
    simp only [replaceQueryFrom]
    simp only [placeholder_data] at hpre' ⊢
    cases hsp : splitFirst ('$' :: Nat.toDigits 10 (i + 1)) p with
    | some ab =>
      obtain ⟨a', b'⟩ := ab
      have h1 := splitFirst_append_of_some '$' (Nat.toDigits 10 (i + 1)) ('$' :: (js ++ q))
        p a' b' hsp
      have h2 : jsReplace (p ++ '$' :: (js ++ q)) ('$' :: Nat.toDigits 10 (i + 1))
          a.literal.data =
          jsReplace p ('$' :: Nat.toDigits 10 (i + 1)) a.literal.data ++ '$' :: (js ++ q) := by
        simp only [jsReplace, h1, hsp, getSubstitution_of_no_pattern _ _ _ _ hla,
          List.append_assoc]
      rw [h2]
      exact ih (i + 1) _ q hlr hpre'
    | none =>
      have hno : ∀ x, ¬ Nat.toDigits 10 (i + 1) <+: js ++ x := by
        rcases h0 with h0 | h0
        · exact h0
        · exact absurd h0 (not_occurs_of_splitFirst_none _ _ hsp)
      have hz : ('$' :: Nat.toDigits 10 (i + 1)).isPrefixOf ('$' :: (js ++ q)) = false := by
        rw [Bool.eq_false_iff]
        intro e
        have := List.isPrefixOf_iff_prefix.1 e
        rw [List.cons_prefix_cons] at this
        exact hno q this.2
      have h1 : splitFirst ('$' :: Nat.toDigits 10 (i + 1)) (p ++ '$' :: (js ++ q)) =
          (splitFirst ('$' :: Nat.toDigits 10 (i + 1)) q).map
            fun r => (p ++ '$' :: (js ++ r.1), r.2) := by
        rw [splitFirst_skip_of_none _ _ hdig p hsp, splitFirst, hz,
          splitFirst_skip_digits _ q js hjs]
        cases splitFirst ('$' :: Nat.toDigits 10 (i + 1)) q <;> simp
      have h2 : jsReplace (p ++ '$' :: (js ++ q)) ('$' :: Nat.toDigits 10 (i + 1))
          a.literal.data =
          p ++ '$' :: (js ++ jsReplace q ('$' :: Nat.toDigits 10 (i + 1)) a.literal.data) := by
        simp only [jsReplace, h1]
        cases splitFirst ('$' :: Nat.toDigits 10 (i + 1)) q with
        | none => simp
        | some r =>
          simp [getSubstitution_of_no_pattern _ _ _ _ hla, List.append_assoc]
      have h3 : jsReplace p ('$' :: Nat.toDigits 10 (i + 1)) a.literal.data = p := by
        simp only [jsReplace, hsp]
      rw [h3] at hpre'
      rw [h2, h3]
      exact ih (i + 1) p _ hlr hpre'

/-! ## Placeholders of the fragments -/

theorem takeWhile_append_cons_of_neg (x : Char) (rest : List Char) (hx : x.isDigit = false) :
    ∀ s : List Char, (s ++ x :: rest).takeWhile Char.isDigit = s.takeWhile Char.isDigit := by
  intro s
  induction s with
  | nil => simp [List.takeWhile, hx]
  | cons c s ih =>
    by_cases hc : c.isDigit = true
    · simp [List.takeWhile, hc, ih]
    · have hc2 : c.isDigit = false := by simpa using hc
      simp [List.takeWhile, hc2]

theorem dollarRuns_cons_dollar (cs : List Char) :
    dollarRuns ('$' :: cs) = cs.takeWhile Char.isDigit :: dollarRuns cs := by
  simp [dollarRuns]

theorem dollarRuns_cons_of_ne (c : Char) (cs : List Char) (h : c ≠ '$') :
    dollarRuns (c :: cs) = dollarRuns cs := by
  simp [dollarRuns, h]

theorem dollarRuns_append_cons (x : Char) (rest : List Char) (hx : x.isDigit = false) :
    ∀ s : List Char, dollarRuns (s ++ x :: rest) = dollarRuns s ++ dollarRuns (x :: rest) := by
  intro s
  induction s with
  | nil => rfl
  | cons c s ih =>
    by_cases hc : c = '$'
    · subst hc
      rw [List.cons_append, dollarRuns_cons_dollar, dollarRuns_cons_dollar,
        takeWhile_append_cons_of_neg x rest hx s, ih, List.cons_append]
    · rw [List.cons_append, dollarRuns_cons_of_ne _ _ hc, dollarRuns_cons_of_ne _ _ hc, ih]

theorem intercalate_go_data (sep : String) :
    ∀ (as : List String) (acc : String),
      (String.intercalate.go acc sep as).data =
        acc.data ++ (as.map fun a => sep.data ++ a.data).flatten := by
  intro as
  induction as with
  | nil => intro acc; simp [String.intercalate.go]
  | cons a as ih =>
    intro acc
    simp [String.intercalate.go, ih, String.data_append, List.append_assoc]

theorem intercalate_cons_data (sep a : String) (as : List String) :
    (sep.intercalate (a :: as)).data = a.data ++ (as.map fun b => sep.data ++ b.data).flatten := by
  simp [String.intercalate, intercalate_go_data]

theorem dollarRuns_join_lines (as : List String) :
    dollarRuns (as.map fun b => "\n".data ++ b.data).flatten =
      (as.map fun b => dollarRuns b.data).flatten := by
  induction as with
  | nil => rfl
  | cons b as ih =>
    have hnl : Char.isDigit '\n' = false := by decide
    have hne : '\n' ≠ '$' := by decide
    simp only [List.map_cons, List.flatten_cons]
    show dollarRuns ('\n' :: (b.data ++ _)) = _
    rw [dollarRuns_cons_of_ne _ _ hne]
    cases as with
    | nil => simp
    | cons b2 as =>
      simp only [List.map_cons, List.flatten_cons] at ih ⊢
      have : b.data ++ ("\n".data ++ b2.data ++
          (List.map (fun b => "\n".data ++ b.data) as).flatten) =
          b.data ++ '\n' :: (b2.data ++ (List.map (fun b => "\n".data ++ b.data) as).flatten) := by
        simp
      rw [this, dollarRuns_append_cons '\n' _ hnl b.data]
      have h2 : '\n' :: (b2.data ++ (List.map (fun b => "\n".data ++ b.data) as).flatten) =
          "\n".data ++ b2.data ++ (List.map (fun b => "\n".data ++ b.data) as).flatten := by
        simp
      rw [h2, ih]

theorem placeholderIndices_intercalate (cs : List String) :
    placeholderIndices ("\n".intercalate cs) = (cs.map placeholderIndices).flatten := by
  cases cs with
  | nil => rfl
  | cons a as =>
    have hnl : Char.isDigit '\n' = false := by decide
    have key : dollarRuns ("\n".intercalate (a :: as)).data =
        dollarRuns a.data ++ (as.map fun b => dollarRuns b.data).flatten := by
      rw [intercalate_cons_data]
      cases as with
      | nil => simp
      | cons b as =>
        have h1 : a.data ++ (List.map (fun b => "\n".data ++ b.data) (b :: as)).flatten =
            a.data ++ '\n' :: (b.data ++ (List.map (fun b => "\n".data ++ b.data) as).flatten) := by
          simp
        have h2 : '\n' :: (b.data ++ (List.map (fun b => "\n".data ++ b.data) as).flatten) =
            (List.map (fun b => "\n".data ++ b.data) (b :: as)).flatten := by
          simp
        rw [h1, dollarRuns_append_cons '\n' _ hnl a.data, h2, dollarRuns_join_lines]
    unfold placeholderIndices
    rw [key]
    simp only [List.filterMap_append, List.map_cons, List.flatten_cons, List.filterMap_flatten,
      List.map_map]
    rfl

theorem placeholderIndices_text_placeholder (t : String) (k : Nat) (ht : '$' ∉ t.data)
    (hk : 0 < k) : placeholderIndices (t ++ placeholder k) = [k] := by
  unfold placeholderIndices
  rw [String.data_append, placeholder_data, dollarRuns_append_of_no_dollar _ _ ht]
  have := dollarRuns_token (Nat.toDigits 10 k) [] (toDigits_isDigit k) noLeadingDigit_nil
  rw [List.append_nil] at this
  rw [this]
  simp [dollarRuns, placeholderIndex_toDigits k hk]

theorem placeholderIndices_text (t : String) (ht : '$' ∉ t.data) :
    placeholderIndices t = [] := by
  unfold placeholderIndices
  rw [dollarRuns_of_no_dollar _ ht]
  rfl

theorem range_succ_append (s a b : Nat) :
    List.range' (s + 1) a ++ List.range' (s + a + 1) b = List.range' (s + 1) (a + b) := by
  have := List.range'_append (s + 1) a b 1
  rw [Nat.one_mul] at this
  rw [Nat.add_comm a b, ← this]
  congr 2
  omega

theorem filterCase_indices (decode : Decoder) (table key v : String) (len : Nat)
    (cs : List String) (ps : List Param)
    (h : filterCase decode table key v len = some (cs, ps)) :
    (cs.map placeholderIndices).flatten = List.range' (len + 1) ps.length := by
  have hk : 0 < len + 1 := Nat.succ_pos len
  unfold filterCase at h
  by_cases h1 : key = "url"
  · subst h1
    by_cases ht : table = "pageview" ∨ table = "event"
    · simp only [if_pos ht, if_true, Option.map_eq_some', Prod.mk.injEq] at h
      obtain ⟨d, -, rfl, rfl⟩ := h
      rcases ht with rfl | rfl <;> simp [List.range'] <;>
        exact placeholderIndices_text_placeholder _ _ (by decide) hk
    · simp only [if_neg ht, if_true, Option.some.injEq, Prod.mk.injEq] at h
      obtain ⟨rfl, rfl⟩ := h
      rfl
  by_cases h2 : key = "os" ∨ key = "browser" ∨ key = "device" ∨ key = "country"
  · by_cases ht : table = "session"
    · simp only [if_neg h1, if_pos h2, if_pos ht, Option.map_eq_some', Prod.mk.injEq] at h
      obtain ⟨d, -, rfl, rfl⟩ := h
      subst ht
      rcases h2 with rfl | rfl | rfl | rfl <;> simp [List.range'] <;>
        exact placeholderIndices_text_placeholder _ _ (by decide) hk
    · simp only [if_neg h1, if_pos h2, if_neg ht, Option.some.injEq, Prod.mk.injEq] at h
      obtain ⟨rfl, rfl⟩ := h
      rfl
  by_cases h3 : key = "event_name"
  · subst h3
    by_cases ht : table = "event"
    · simp only [if_neg h1, if_neg h2, if_pos ht, if_true, Option.map_eq_some',
        Prod.mk.injEq] at h
      obtain ⟨d, -, rfl, rfl⟩ := h
      subst ht
      simp [List.range']
      exact placeholderIndices_text_placeholder _ _ (by decide) hk
    · simp only [if_neg h1, if_neg h2, if_neg ht, if_true, Option.some.injEq,
        Prod.mk.injEq] at h
      obtain ⟨rfl, rfl⟩ := h
      rfl
  by_cases h4 : key = "referrer"
  · subst h4
    by_cases ht : table = "pageview" ∨ table = "event"
    · simp only [if_neg h1, if_neg h2, if_neg h3, if_pos ht, if_true, Option.map_eq_some',
        Prod.mk.injEq] at h
      obtain ⟨d, -, rfl, rfl⟩ := h
      rcases ht with rfl | rfl <;> simp [List.range'] <;>
        exact placeholderIndices_text_placeholder _ _ (by decide) hk
    · simp only [if_neg h1, if_neg h2, if_neg h3, if_neg ht, if_true, Option.some.injEq,
        Prod.mk.injEq] at h
      obtain ⟨rfl, rfl⟩ := h
      rfl
  by_cases h5 : key = "domain"
  · subst h5
    by_cases ht : table = "pageview"
    · simp only [if_neg h1, if_neg h2, if_neg h3, if_neg h4, if_pos ht, if_true,
        Option.some.injEq, Prod.mk.injEq] at h
      obtain ⟨rfl, rfl⟩ := h
      subst ht
      have e1 := placeholderIndices_text_placeholder "and pageview.referrer not like "
        (len + 1) (by decide) hk
      have e2 := placeholderIndices_text "and pageview.referrer not like '/%'" (by decide)
      simp [List.range', e1, e2]
    · simp only [if_neg h1, if_neg h2, if_neg h3, if_neg h4, if_neg ht, if_true,
        Option.some.injEq, Prod.mk.injEq] at h
      obtain ⟨rfl, rfl⟩ := h
      rfl
  by_cases h6 : key = "query"
  · subst h6
    by_cases ht : table = "pageview"
    · simp only [if_neg h1, if_neg h2, if_neg h3, if_neg h4, if_neg h5, if_pos ht, if_true,
        Option.some.injEq, Prod.mk.injEq] at h
      obtain ⟨rfl, rfl⟩ := h
      subst ht
      have e2 := placeholderIndices_text "and pageview.url like '%?%'" (by decide)
      simp [List.range', e2]
    · simp only [if_neg h1, if_neg h2, if_neg h3, if_neg h4, if_neg h5, if_neg ht, if_true,
        Option.some.injEq, Prod.mk.injEq] at h
      obtain ⟨rfl, rfl⟩ := h
      rfl
  simp only [if_neg h1, if_neg h2, if_neg h3, if_neg h4, if_neg h5, if_neg h6,
    Option.some.injEq, Prod.mk.injEq] at h
  obtain ⟨rfl, rfl⟩ := h
  rfl

theorem getFilterClauses_indices (decode : Decoder) (table : String) :
    ∀ (filters : Filters) (arr : List String) (params : List Param)
      (arr' : List String) (params' : List Param),
      getFilterClauses decode table filters arr params = some (arr', params') →
      ∃ new ps, arr' = arr ++ new ∧ params' = params ++ ps ∧
        (new.map placeholderIndices).flatten = List.range' (params.length + 1) ps.length := by
  intro filters
  induction filters with
  | nil =>
    intro arr params arr' params' h
    simp only [getFilterClauses, Option.some.injEq, Prod.mk.injEq] at h
    exact ⟨[], [], by simp [h.1], by simp [h.2], rfl⟩
  | cons kv rest ih =>
    obtain ⟨key, filter⟩ := kv
    intro arr params arr' params' h
    cases filter with
    | undefined =>
      simp only [getFilterClauses, FilterValue.active?] at h
      exact ih arr params arr' params' h
    | ignored =>
      simp only [getFilterClauses, FilterValue.active?] at h
      exact ih arr params arr' params' h
    | str v =>
      simp only [getFilterClauses, FilterValue.active?] at h
      cases hfc : filterCase decode table key v params.length with
      | none => simp [hfc] at h
      | some r =>
        obtain ⟨cs, ps⟩ := r
        simp only [hfc] at h
        obtain ⟨new, ps2, h1, h2, h3⟩ := ih (arr ++ cs) (params ++ ps) arr' params' h
        refine ⟨cs ++ new, ps ++ ps2, by simp [h1], by simp [h2], ?_⟩
        rw [List.map_append, List.flatten_append,
          filterCase_indices decode table key v params.length cs ps hfc, h3,
          List.length_append, List.length_append, range_succ_append]

/-- The placeholders of the fragment returned by `getFilterQuery` are numbered
from the length of the parameter list onwards, one for each appended
parameter. -/
theorem getFilterQuery_indices (decode : Decoder) (table column : String)
    (filters : Filters) (params : List Param) (query : String) (params' : List Param)
    (h : getFilterQuery decode table column filters params = some (query, params')) :
    ∃ ps, params' = params ++ ps ∧
      placeholderIndices query = List.range' (params.length + 1) ps.length := by
  simp only [getFilterQuery, Option.map_eq_some', Prod.mk.injEq] at h
  obtain ⟨⟨arr, ps0⟩, h1, h2, h3⟩ := h
  obtain ⟨new, ps, h4, h5, h6⟩ :=
    getFilterClauses_indices decode table filters [] params arr ps0 h1
  simp only [List.nil_append] at h4
  subst h4
  simp only at h2 h3
  refine ⟨ps, by rw [← h3, h5], ?_⟩
  rw [← h2, placeholderIndices_intercalate, h6]

/-! ## The calls return when no decoding throws -/

theorem filterCase_isSome (decode : Decoder) (hdec : ∀ s, ∃ d, decode s = some d)
    (table key v : String) (len : Nat) : ∃ r, filterCase decode table key v len = some r := by
  obtain ⟨d, hd⟩ := hdec v
  unfold filterCase
  simp only [hd, Option.map_some']
  split_ifs <;> exact ⟨_, rfl⟩

theorem getFilterClauses_isSome (decode : Decoder) (hdec : ∀ s, ∃ d, decode s = some d)
    (table : String) :
    ∀ (filters : Filters) (arr : List String) (params : List Param),
      ∃ r, getFilterClauses decode table filters arr params = some r := by
  intro filters
  induction filters with
  | nil => intro arr params; exact ⟨_, rfl⟩
  | cons kv rest ih =>
    obtain ⟨key, filter⟩ := kv
    intro arr params
    cases filter with
    | undefined => simpa only [getFilterClauses, FilterValue.active?] using ih arr params
    | ignored => simpa only [getFilterClauses, FilterValue.active?] using ih arr params
    | str v =>
      obtain ⟨⟨cs, ps⟩, hr⟩ := filterCase_isSome decode hdec table key v params.length
      simpa only [getFilterClauses, FilterValue.active?, hr] using ih (arr ++ cs) (params ++ ps)

theorem getFilterQuery_isSome (decode : Decoder) (hdec : ∀ s, ∃ d, decode s = some d)
    (table column : String) (filters : Filters) (params : List Param) :
    ∃ r, getFilterQuery decode table column filters params = some r := by
  obtain ⟨r, hr⟩ := getFilterClauses_isSome decode hdec table filters [] params
  exact ⟨("\n".intercalate r.1, r.2), by simp only [getFilterQuery, hr, Option.map_some']⟩

/-- With a decoder that never throws, `parseFilters` returns. -/
theorem parseFilters_isSome (decode : Decoder) (hdec : ∀ s, ∃ d, decode s = some d)
    (ignoredTruthy : Bool) (table column : String) (filters : Filters) (params : List Param)
    (sessionKey : String) :
    ∃ r, parseFilters decode ignoredTruthy table column filters params sessionKey = some r := by
  unfold parseFilters
  simp only
  obtain ⟨⟨pq, p1⟩, h1⟩ := getFilterQuery_isSome decode hdec "pageview" column
    [("domain", filters.get "domain"), ("url", filters.get "url"),
     ("referrer", filters.get "referrer"), ("query", filters.get "query")] params
  obtain ⟨⟨sq, p2⟩, h2⟩ := getFilterQuery_isSome decode hdec "session" column
    [("os", filters.get "os"), ("browser", filters.get "browser"),
     ("device", filters.get "device"), ("country", filters.get "country")] p1
  obtain ⟨⟨eq, p3⟩, h3⟩ := getFilterQuery_isSome decode hdec "event" column
    [("url", filters.get "event_url"), ("event_name", filters.get "event_name")] p2
  rw [h1]
  simp only
  rw [h2]
  simp only
  rw [h3]
  exact ⟨_, rfl⟩

/-! ## Properties of findUnique and findFirst -/

/-- C8: `findUnique` resolves to null for the empty row list and to the row for
a one-row list, is rejected (with the message that counts the rows) for every
list of more than one row, and is rejected for no list of length 0 or 1. -/
theorem findUnique_cardinality {Row : Type} :
    findUnique ([] : List Row) = Except.ok none ∧
    (∀ a : Row, findUnique [a] = Except.ok (some a)) ∧
    (∀ data : List Row, 1 < data.length →
      findUnique data =
        Except.error (toString data.length ++ " records found when expecting 1.")) ∧
    (∀ data : List Row, data.length ≤ 1 → ∃ r, findUnique data = Except.ok r) := by
  refine ⟨rfl, fun a => rfl, ?_, ?_⟩
  · intro data h
    simp [findUnique, h]
  · intro data h
    have : ¬ data.length > 1 := by omega
    exact ⟨data.head?, by simp [findUnique, this]⟩

theorem findUnique_cardinality_witness :
    findUnique [10, 20] = Except.error "2 records found when expecting 1." ∧
    (∃ r, findUnique [10] = Except.ok r) :=
  ⟨findUnique_cardinality.2.2.1 [10, 20] (by decide),
   findUnique_cardinality.2.2.2 [10] (by decide)⟩

/-- C9: `findFirst` never fails: it resolves to the first row of a non-empty
list, whatever follows it, and to null for the empty list. -/
theorem findFirst_total {Row : Type} :
    findFirst ([] : List Row) = Except.ok none ∧
    (∀ (a : Row) (rest : List Row), findFirst (a :: rest) = Except.ok (some a)) ∧
    (∀ data : List Row, ∃ r, findFirst data = Except.ok r) :=
  ⟨rfl, fun _ _ => rfl, fun data => ⟨data.head?, rfl⟩⟩

/-! ## Properties of getFilterQuery -/

/-- C1: every clause of the fragment returned by `getFilterQuery` starts with
`and <table>.` for the table of the call and is one of the clauses the
eligibility table lists for an active key of the filter map that is eligible for
that table; so no clause comes from a key that is not eligible. -/
theorem getFilterQuery_clauses_eligible (decode : Decoder) (table column : String)
    (filters : Filters) (params : List Param) (query : String) (params' : List Param)
    (h : getFilterQuery decode table column filters params = some (query, params')) :
    ∃ clauses : List String, query = "\n".intercalate clauses ∧
      ∀ c ∈ clauses, ("and " ++ table ++ ".").data <+: c.data ∧
        ∃ key v k, (key, FilterValue.str v) ∈ filters ∧ eligible key table = true ∧
          c ∈ clauseForms table key k := by
  simp only [getFilterQuery, Option.map_eq_some', Prod.mk.injEq] at h
  obtain ⟨⟨arr, ps⟩, h1, h2, -⟩ := h
  obtain ⟨new, h3, h4⟩ := getFilterClauses_sound decode table filters [] params arr ps h1
  simp only [List.nil_append] at h3
  subst h3
  refine ⟨arr, h2.symm, fun c hc => ?_⟩
  obtain ⟨key, v, k, hm, he, hf⟩ := h4 c hc
  exact ⟨clauseForms_startsWith table key k c hf, key, v, k, hm, he, hf⟩

theorem getFilterQuery_clauses_eligible_witness :
    getFilterQuery identityDecoder "pageview" "created_at"
        [("os", FilterValue.str "Linux"), ("url", FilterValue.str "/docs"),
         ("domain", FilterValue.ignored), ("query", FilterValue.str "1")] [] =
      some ("and pageview.url=$1\nand pageview.url like '%?%'", [Param.str "/docs"]) ∧
    ∃ clauses : List String,
      "and pageview.url=$1\nand pageview.url like '%?%'" = "\n".intercalate clauses ∧
      ∀ c ∈ clauses, ("and " ++ "pageview" ++ ".").data <+: c.data ∧
        ∃ key v k, (key, FilterValue.str v) ∈
            [("os", FilterValue.str "Linux"), ("url", FilterValue.str "/docs"),
             ("domain", FilterValue.ignored), ("query", FilterValue.str "1")] ∧
          eligible key "pageview" = true ∧ c ∈ clauseForms "pageview" key k :=
  ⟨by decide, getFilterQuery_clauses_eligible identityDecoder "pageview" "created_at"
    [("os", FilterValue.str "Linux"), ("url", FilterValue.str "/docs"),
     ("domain", FilterValue.ignored), ("query", FilterValue.str "1")] []
    "and pageview.url=$1\nand pageview.url like '%?%'" [Param.str "/docs"] (by decide)⟩

/-- C5, on the filter set whose only entry is an empty `os`: the session
fragment has the clause for `os` and its parameter, and `joinSession` is the
empty string. -/
theorem parseFilters_empty_os_without_join (ignoredTruthy : Bool) :
    (parseFilters identityDecoder ignoredTruthy "pageview" "created_at"
        [("os", FilterValue.str "")] [] "session_id").map
        (fun r => (r.1.joinSession, r.1.sessionQuery, r.2)) =
      some ("", "and session.os=$1", [Param.str ""]) := by
  cases ignoredTruthy <;> decide

/-! ## Properties of replaceQuery -/

/-- C10, as stated, fails: the text `limit $20` has no placeholder `$1` or `$2`,
its one placeholder is `$20`, and with two parameters the text `$2` is found
inside it, so `replaceQuery` changes the string. -/
theorem replaceQuery_rewrites_unlisted_token :
    placeholderIndices "limit $20" = [20] ∧
    replaceQuery "limit $20" [Param.str "a", Param.str "b"] = "limit 'b'0" ∧
    replaceQuery "limit $20" [Param.str "a", Param.str "b"] ≠ "limit $20" := by
  decide

/-- C10, amended: `replaceQuery` returns its argument unchanged when the text
`$i` occurs in it for no index `i` of the parameter list, that is when no `$` of
the string is followed by the numeral of such an index: the string has no
placeholder `$i` with `1 ≤ i ≤ n` and no longer placeholder whose numeral begins
with the numeral of such an index. -/
theorem replaceQuery_of_resolved (s : String) (params : List Param)
    (h : ∀ i, 1 ≤ i → i ≤ params.length → ¬ (placeholder i).data <:+: s.data) :
    replaceQuery s params = s := by
  unfold replaceQuery
  rw [replaceQueryFrom_of_absent params 0 s.data]
  intro k hk1 hk2
  exact h k hk1 (by omega)

theorem replaceQuery_of_resolved_witness :
    replaceQuery "select count(*) from event where x = '$3'" [Param.str "q", Param.int 2 (by decide)] =
      "select count(*) from event where x = '$3'" :=
  replaceQuery_of_resolved "select count(*) from event where x = '$3'"
    [Param.str "q", Param.int 2 (by decide)]
    (by
      intro i h1 h2
      have h3 : i ≤ 2 := h2
      interval_cases i <;> decide)

/-- C3, as stated, fails: the value `x$2` inserted for `$1` is rewritten when
`$2` is substituted, so the result differs from the one-pass substitution. -/
theorem replaceQuery_rescans_inserted_text :
    replaceQuery "a=$1 and b=$2" [Param.str "x$2", Param.str "y"] = "a='x'y'' and b=$2" ∧
    substituteOnePass "a=$1 and b=$2" [Param.str "x$2", Param.str "y"] =
      "a='x$2' and b='y'" ∧
    replaceQuery "a=$1 and b=$2" [Param.str "x$2", Param.str "y"] ≠
      substituteOnePass "a=$1 and b=$2" [Param.str "x$2", Param.str "y"] := by
  decide

/-- C3, amended: when the `$` of the template are exactly the placeholders
`$1`, `$2`, ..., `$m`, each once and in this order, and no parameter literal
contains a `$`, `replaceQuery` returns the one-pass substitution of the
template. -/
theorem replaceQuery_eq_substituteOnePass (template : String) (params : List Param) (m : Nat)
    (hruns : dollarRuns template.data = (List.range' 1 m).map (fun i => (toString i).data))
    (hparams : ∀ a ∈ params, '$' ∉ a.literal.data) :
    replaceQuery template params = substituteOnePass template params := by
  have h := replaceQueryFrom_eq_onePass params [] [] template.data m (by simp) hparams
    (by simpa [toString_nat_data] using hruns)
  simp only [List.length_nil, List.nil_append] at h
  simp only [replaceQuery, substituteOnePass, h]

theorem replaceQuery_eq_substituteOnePass_witness :
    replaceQuery "a=$1 and b=$2 or c=$3" [Param.str "x", Param.int 5 (by decide)] =
      substituteOnePass "a=$1 and b=$2 or c=$3" [Param.str "x", Param.int 5 (by decide)] ∧
    substituteOnePass "a=$1 and b=$2 or c=$3" [Param.str "x", Param.int 5 (by decide)] =
      "a='x' and b=5 or c=$3" :=
  ⟨replaceQuery_eq_substituteOnePass "a=$1 and b=$2 or c=$3" [Param.str "x", Param.int 5 (by decide)] 3
    (by decide) (by decide), by decide⟩

/-- C4, as stated, fails for a string value that ends with `$`: the closing
apostrophe of the literal follows the `$`, the pair is expanded to the text after
the match, and the result is not the template with `$1` replaced by the quoted
value. -/
theorem replaceQuery_value_ending_in_dollar :
    replaceQuery "x=$1 y" [Param.str "a$"] = "x='a y y" ∧
    replaceQuery "x=$1 y" [Param.str "a$"] ≠ "x=" ++ (Param.str "a$").literal ++ " y" := by
  decide

/-- C4, amended: when the first `$` of the template begins the text `$1` (as in
a template that contains `$1` exactly once and no other `$`), `replaceQuery`
with one parameter replaces that `$1` by the decimal numeral of a parameter
that is a safe integer (`|n| < 2^53`), and by a string parameter between
apostrophes when in that quoted text no `$` is followed by `$`, `&`, a grave
accent or an apostrophe. -/
theorem replaceQuery_single_placeholder (pre post : String) (hpre : '$' ∉ pre.data) :
    (∀ (n : Int) (hn : n.natAbs < 9007199254740992),
      replaceQuery (pre ++ placeholder 1 ++ post) [Param.int n hn] =
        pre ++ toString n ++ post) ∧
    (∀ v : String, hasSpecialPattern ("'" ++ v ++ "'").data = false →
      replaceQuery (pre ++ placeholder 1 ++ post) [Param.str v] =
        pre ++ ("'" ++ v ++ "'") ++ post) := by
  have key : ∀ a : Param, hasSpecialPattern a.literal.data = false →
      replaceQuery (pre ++ placeholder 1 ++ post) [a] = pre ++ a.literal ++ post := by
    intro a ha
    apply String.ext
    simp only [replaceQuery, replaceQueryFrom, String.data_append, placeholder_data]
    rw [jsReplace_at_first '$' _ pre.data post.data _ hpre,
      getSubstitution_of_no_pattern _ _ _ _ ha]
  exact ⟨fun n hn => key (Param.int n hn)
      (hasSpecialPattern_of_no_dollar _ (literal_int_no_dollar n hn)),
    fun v hv => key (Param.str v) hv⟩

theorem replaceQuery_single_placeholder_witness :
    replaceQuery ("where url=" ++ placeholder 1 ++ " limit 5") [Param.str "/a$b"] =
      "where url=" ++ ("'" ++ "/a$b" ++ "'") ++ " limit 5" ∧
    replaceQuery ("where url=" ++ placeholder 1 ++ " limit 5") [Param.int (-42) (by decide)] =
      "where url=-42 limit 5" :=
  ⟨(replaceQuery_single_placeholder "where url=" " limit 5" (by decide)).2 "/a$b"
      (by decide),
   by decide⟩

/-- C6, as stated, fails: only the first occurrence of a placeholder is
replaced, so a placeholder that occurs twice is left in the result. -/
theorem replaceQuery_replaces_first_occurrence_only :
    replaceQuery "$1 or $1" [Param.str "a"] = "'a' or $1" ∧
    placeholderIndices "$1 or $1" = [1, 1] ∧
    placeholderIndices (replaceQuery "$1 or $1" [Param.str "a"]) = [1] ∧
    substituteOnePass "$1 or $1" [Param.str "a"] = "'a' or 'a'" := by
  decide

/-- C6, amended: when no parameter literal contains a `$` and the `$` of the
template are exactly the placeholders `$1`, ..., `$m`, each once and in this
order, with `m` at most the number of parameters, `replaceQuery` replaces every
placeholder by the literal of its parameter and no `$` is left in the result. -/
theorem replaceQuery_resolves_all (template : String) (params : List Param) (m : Nat)
    (hruns : dollarRuns template.data = (List.range' 1 m).map (fun i => (toString i).data))
    (hm : m ≤ params.length)
    (hparams : ∀ a ∈ params, '$' ∉ a.literal.data) :
    replaceQuery template params = substituteOnePass template params ∧
    '$' ∉ (replaceQuery template params).data ∧
    placeholderIndices (replaceQuery template params) = [] := by
  have hruns' : dollarRuns template.data = (List.range' 1 m).map (Nat.toDigits 10) := by
    simpa [toString_nat_data] using hruns
  have h := replaceQueryFrom_eq_onePass params [] [] template.data m (by simp) hparams hruns'
  simp only [List.length_nil, List.nil_append] at h
  have hno : '$' ∉ onePass params none template.data := by
    apply onePass_no_dollar_of_resolved params _ template.data hruns'
    intro r hr
    obtain ⟨j, hj, rfl⟩ := List.mem_map.1 hr
    have hj2 := List.mem_range'_1.1 hj
    obtain ⟨a, ha⟩ : ∃ a, params.get? (j - 1) = some a := by
      have hlt : j - 1 < params.length := by omega
      exact ⟨params.get ⟨j - 1, hlt⟩, List.get?_eq_get hlt⟩
    unfold resolveToken
    rw [placeholderIndex_toDigits _ (by omega)]
    simp only [ha]
    exact hparams a (List.get?_mem ha)
  refine ⟨by simp only [replaceQuery, substituteOnePass, h], ?_, ?_⟩
  · simpa only [replaceQuery, h] using hno
  · simp only [placeholderIndices, replaceQuery, h, dollarRuns_of_no_dollar _ hno,
      List.filterMap_nil]

theorem replaceQuery_resolves_all_witness :
    replaceQuery "a=$1 and b=$2" [Param.str "x", Param.int 5 (by decide), Param.str "unused"] =
      "a='x' and b=5" ∧
    '$' ∉ (replaceQuery "a=$1 and b=$2"
      [Param.str "x", Param.int 5 (by decide), Param.str "unused"]).data :=
  ⟨by decide,
   (replaceQuery_resolves_all "a=$1 and b=$2" [Param.str "x", Param.int 5 (by decide), Param.str "unused"]
      2 (by decide) (by decide) (by decide)).2.1⟩

/-- C7, as stated, fails: with one parameter the text `$1` is found inside the
placeholder `$10`, which therefore does not pass through. -/
theorem replaceQuery_rewrites_longer_placeholder :
    replaceQuery "x=$10" [Param.str "a"] = "x='a'0" ∧
    placeholderIndices "x=$10" = [10] ∧
    ¬ (placeholder 10).data <:+: (replaceQuery "x=$10" [Param.str "a"]).data := by
  decide

/-- C7, amended: a placeholder `$j` with `j` beyond the parameter list passes
through when in no parameter literal a `$` is followed by `$`, `&`, a grave
accent or an apostrophe (as when no value contains a `$`), provided that for
every index `i` of the list whose numeral begins the numeral of `j` the text
`$i` still occurs before the placeholder when `$i` is substituted, that is in
`replaceQuery` of the text before the placeholder with the first `i - 1`
parameters. The result is then `replaceQuery` of the text before the
placeholder, `$j` itself, and the text that the replacements leave after it. -/
theorem replaceQuery_placeholder_passthrough (pre post : String) (j : Nat)
    (params : List Param) (hj : params.length < j)
    (hstart : ∀ i, 1 ≤ i → i ≤ params.length →
      (toString i).data <+: (toString j).data →
      (placeholder i).data <:+: (replaceQuery pre (params.take (i - 1))).data)
    (hparams : ∀ a ∈ params, hasSpecialPattern a.literal.data = false) :
    ∃ post' : String, replaceQuery (pre ++ placeholder j ++ post) params =
      replaceQuery pre params ++ placeholder j ++ post' := by
  obtain ⟨q', hq⟩ := replaceQueryFrom_passthrough (Nat.toDigits 10 j) (toDigits_isDigit j)
    params 0 pre.data post.data hparams (by
      intro m hm
      rw [Nat.zero_add]
      by_cases hp : Nat.toDigits 10 (m + 1) <+: Nat.toDigits 10 j
      · right
        have := hstart (m + 1) (by omega) (by omega) hp
        rw [placeholder_data, Nat.add_sub_cancel] at this
        exact this
      · left
        intro x
        exact toDigits_not_prefix_append (m + 1) j (by omega) hp x)
  refine ⟨String.mk q', ?_⟩
  apply String.ext
  simp only [replaceQuery, String.data_append, placeholder_data, List.append_assoc,
    List.cons_append] at hq ⊢
  exact hq

theorem replaceQuery_placeholder_passthrough_witness :
    replaceQuery ("a=$1 b=$2 c=$3 d=$4 e=$5 f=$6 g=$7 h=$8 i=$9 j=" ++ placeholder 10 ++ " k=$3")
        [Param.str "p", Param.int 2 (by decide), Param.str "q$x", Param.str "r",
         Param.str "s", Param.str "t", Param.str "u", Param.str "v", Param.str "w"] =
      "a='p' b=2 c='q$x' d='r' e='s' f='t' g='u' h='v' i='w' j=$10 k=$3" ∧
    ∃ post' : String,
      replaceQuery
          ("a=$1 b=$2 c=$3 d=$4 e=$5 f=$6 g=$7 h=$8 i=$9 j=" ++ placeholder 10 ++ " k=$3")
          [Param.str "p", Param.int 2 (by decide), Param.str "q$x", Param.str "r",
           Param.str "s", Param.str "t", Param.str "u", Param.str "v", Param.str "w"] =
        replaceQuery "a=$1 b=$2 c=$3 d=$4 e=$5 f=$6 g=$7 h=$8 i=$9 j="
            [Param.str "p", Param.int 2 (by decide), Param.str "q$x", Param.str "r",
             Param.str "s", Param.str "t", Param.str "u", Param.str "v", Param.str "w"] ++
          placeholder 10 ++ post' :=
  ⟨by decide,
   replaceQuery_placeholder_passthrough "a=$1 b=$2 c=$3 d=$4 e=$5 f=$6 g=$7 h=$8 i=$9 j="
     " k=$3" 10
     [Param.str "p", Param.int 2 (by decide), Param.str "q$x", Param.str "r", Param.str "s",
      Param.str "t", Param.str "u", Param.str "v", Param.str "w"] (by decide)
     (by
       intro i h1 h2
       have h3 : i ≤ 9 := h2
       interval_cases i <;> decide)
     (by decide)⟩

/-- C2: after a `parseFilters` call that starts from the empty parameter list,
the placeholder indices of `pageviewQuery`, `sessionQuery` and `eventQuery`, read
in this order, are exactly 1, 2, ..., n for the length n of the final parameter
list; so the list has as many entries as there are placeholders. -/
theorem parseFilters_placeholders_contiguous (decode : Decoder) (ignoredTruthy : Bool)
    (table column : String) (filters : Filters) (sessionKey : String)
    (r : ParsedFilters) (params' : List Param)
    (h : parseFilters decode ignoredTruthy table column filters [] sessionKey =
      some (r, params')) :
    placeholderIndices r.pageviewQuery ++ placeholderIndices r.sessionQuery ++
        placeholderIndices r.eventQuery = List.range' 1 params'.length ∧
    (placeholderIndices r.pageviewQuery ++ placeholderIndices r.sessionQuery ++
        placeholderIndices r.eventQuery).length = params'.length := by
  have key : placeholderIndices r.pageviewQuery ++ placeholderIndices r.sessionQuery ++
      placeholderIndices r.eventQuery = List.range' 1 params'.length := by
    unfold parseFilters at h
    simp only at h
    split at h
    · exact absurd h (by simp)
    · rename_i pq p1 h1
      split at h
      · exact absurd h (by simp)
      · rename_i sq p2 h2
        split at h
        · exact absurd h (by simp)
        · rename_i eq p3 h3
          simp only [Option.some.injEq, Prod.mk.injEq] at h
          obtain ⟨hr, hp⟩ := h
          subst hr
          subst hp
          obtain ⟨ps1, e1, i1⟩ := getFilterQuery_indices _ _ _ _ _ _ _ h1
          obtain ⟨ps2, e2, i2⟩ := getFilterQuery_indices _ _ _ _ _ _ _ h2
          obtain ⟨ps3, e3, i3⟩ := getFilterQuery_indices _ _ _ _ _ _ _ h3
          simp only [i1, i2, i3]
          subst e1
          subst e2
          subst e3
          simp only [List.nil_append, List.length_nil, List.length_append]
          have e1 := range_succ_append 0 p1.length ps2.length
          have e2 := range_succ_append 0 (p1.length + ps2.length) ps3.length
          simp only [Nat.zero_add] at e1 e2 ⊢
          rw [e1, e2]
  exact ⟨key, by rw [key, List.length_range']⟩

theorem parseFilters_placeholders_contiguous_witness :
    parseFilters identityDecoder true "event" "created_at"
        [("country", FilterValue.str "US"), ("url", FilterValue.str "/docs"),
         ("event_name", FilterValue.str "signup"), ("domain", FilterValue.str "example.com"),
         ("browser", FilterValue.ignored)] [] "session_id" =
      some ({ pageviewFilters :=
                [("domain", FilterValue.str "example.com"), ("url", FilterValue.str "/docs"),
                 ("referrer", FilterValue.undefined), ("query", FilterValue.undefined)]
              sessionFilters :=
                [("os", FilterValue.undefined), ("browser", FilterValue.ignored),
                 ("device", FilterValue.undefined), ("country", FilterValue.str "US")]
              eventFilters :=
                [("url", FilterValue.undefined), ("event_name", FilterValue.str "signup")]
              event := [("event_name", FilterValue.str "signup")]
              joinSession := "inner join session on event.session_id = session.session_id"
              pageviewQuery :=
                "and pageview.referrer not like $1\nand pageview.referrer not like '/%'\nand pageview.url=$2"
              sessionQuery := "and session.country=$3"
              eventQuery := "and event.event_name=$4" },
            [Param.str "%://example.com/%", Param.str "/docs", Param.str "US",
             Param.str "signup"]) ∧
    placeholderIndices
        "and pageview.referrer not like $1\nand pageview.referrer not like '/%'\nand pageview.url=$2" ++
      placeholderIndices "and session.country=$3" ++
      placeholderIndices "and event.event_name=$4" = List.range' 1 4 :=
  ⟨by decide,
   (parseFilters_placeholders_contiguous identityDecoder true "event" "created_at"
      [("country", FilterValue.str "US"), ("url", FilterValue.str "/docs"),
       ("event_name", FilterValue.str "signup"), ("domain", FilterValue.str "example.com"),
       ("browser", FilterValue.ignored)] "session_id"
      { pageviewFilters :=
          [("domain", FilterValue.str "example.com"), ("url", FilterValue.str "/docs"),
           ("referrer", FilterValue.undefined), ("query", FilterValue.undefined)]
        sessionFilters :=
          [("os", FilterValue.undefined), ("browser", FilterValue.ignored),
           ("device", FilterValue.undefined), ("country", FilterValue.str "US")]
        eventFilters :=
          [("url", FilterValue.undefined), ("event_name", FilterValue.str "signup")]
        event := [("event_name", FilterValue.str "signup")]
        joinSession := "inner join session on event.session_id = session.session_id"
        pageviewQuery :=
          "and pageview.referrer not like $1\nand pageview.referrer not like '/%'\nand pageview.url=$2"
        sessionQuery := "and session.country=$3"
        eventQuery := "and event.event_name=$4" }
      [Param.str "%://example.com/%", Param.str "/docs", Param.str "US", Param.str "signup"]
      (by decide)).1⟩

/-! ## Operands of the clauses -/

theorem filterCase_of_not_eligible (decode : Decoder) (table key v : String) (len : Nat)
    (h : eligible key table = false) : filterCase decode table key v len = some ([], []) := by
  unfold eligible at h
  unfold filterCase
  split_ifs at h ⊢ <;> simp_all

theorem filterCase_operands (decode : Decoder) (table key v : String) (len : Nat)
    (h : eligible key table = true) :
    (filterCase decode table key v len).map Prod.snd = operands decode key v := by
  unfold eligible at h
  unfold filterCase operands
  split_ifs at h ⊢ <;> simp_all [Option.map_map, Function.comp_def]

theorem operands_singleton (decode : Decoder) (key v : String) (ps : List Param)
    (h : operands decode key v = some ps) : ∀ o ∈ ps, ps = [o] := by
  unfold operands at h
  intro o ho
  split_ifs at h
  · simp only [Option.map_eq_some'] at h
    obtain ⟨d, -, rfl⟩ := h
    simp only [List.mem_singleton] at ho
    rw [ho]
  · simp only [Option.map_eq_some'] at h
    obtain ⟨d, -, rfl⟩ := h
    simp only [List.mem_singleton] at ho
    rw [ho]
  · simp only [Option.some.injEq] at h
    subst h
    simp only [List.mem_singleton] at ho
    rw [ho]
  · simp only [Option.some.injEq] at h
    subst h
    simp at ho

theorem getFilterClauses_params (decode : Decoder) (table : String) :
    ∀ (filters : Filters) (arr : List String) (params : List Param)
      (arr' : List String) (params' : List Param),
      (∀ key v, (key, FilterValue.str v) ∈ filters → eligible key table = true) →
      getFilterClauses decode table filters arr params = some (arr', params') →
      ∃ ops, operandsOf decode filters = some ops ∧ params' = params ++ ops := by
  intro filters
  induction filters with
  | nil =>
    intro arr params arr' params' _ h
    simp only [getFilterClauses, Option.some.injEq, Prod.mk.injEq] at h
    exact ⟨[], rfl, by simp [h.2]⟩
  | cons kv rest ih =>
    obtain ⟨key, filter⟩ := kv
    intro arr params arr' params' hel h
    have hel' : ∀ k v, (k, FilterValue.str v) ∈ rest → eligible k table = true :=
      fun k v hm => hel k v (List.mem_cons_of_mem _ hm)
    cases filter with
    | undefined =>
      simp only [getFilterClauses, FilterValue.active?] at h
      simpa only [operandsOf, FilterValue.active?] using ih arr params arr' params' hel' h
    | ignored =>
      simp only [getFilterClauses, FilterValue.active?] at h
      simpa only [operandsOf, FilterValue.active?] using ih arr params arr' params' hel' h
    | str v =>
      simp only [getFilterClauses, FilterValue.active?] at h
      cases hfc : filterCase decode table key v params.length with
      | none => simp [hfc] at h
      | some r =>
        obtain ⟨cs, ps⟩ := r
        simp only [hfc] at h
        obtain ⟨ops, h1, h2⟩ := ih (arr ++ cs) (params ++ ps) arr' params' hel' h
        have hop := filterCase_operands decode table key v params.length
          (hel key v (List.mem_cons_self _ _))
        rw [hfc] at hop
        simp only [Option.map_some'] at hop
        refine ⟨ps ++ ops, ?_, by rw [h2, List.append_assoc]⟩
        simp only [operandsOf, FilterValue.active?, ← hop, h1]

theorem getFilterClauses_positions (decode : Decoder) (table : String) :
    ∀ (filters : Filters) (arr : List String) (params : List Param)
      (arr' : List String) (params' : List Param),
      getFilterClauses decode table filters arr params = some (arr', params') →
      ∃ new, arr' = arr ++ new ∧ ∀ c ∈ new, ∃ key v k,
        (key, FilterValue.str v) ∈ filters ∧ c ∈ clauseForms table key k ∧
        ∃ ops, operands decode key v = some ops ∧
          ∀ o ∈ ops, params'.get? (k - 1) = some o := by
  intro filters
  induction filters with
  | nil =>
    intro arr params arr' params' h
    simp only [getFilterClauses, Option.some.injEq, Prod.mk.injEq] at h
    exact ⟨[], by simp [h.1], by simp⟩
  | cons kv rest ih =>
    obtain ⟨key, filter⟩ := kv
    intro arr params arr' params' h
    cases filter with
    | undefined =>
      simp only [getFilterClauses, FilterValue.active?] at h
      obtain ⟨new, h1, h2⟩ := ih arr params arr' params' h
      refine ⟨new, h1, fun c hc => ?_⟩
      obtain ⟨k, v, n, hm, he⟩ := h2 c hc
      exact ⟨k, v, n, List.mem_cons_of_mem _ hm, he⟩
    | ignored =>
      simp only [getFilterClauses, FilterValue.active?] at h
      obtain ⟨new, h1, h2⟩ := ih arr params arr' params' h
      refine ⟨new, h1, fun c hc => ?_⟩
      obtain ⟨k, v, n, hm, he⟩ := h2 c hc
      exact ⟨k, v, n, List.mem_cons_of_mem _ hm, he⟩
    | str v =>
      simp only [getFilterClauses, FilterValue.active?] at h
      cases hfc : filterCase decode table key v params.length with
      | none => simp [hfc] at h
      | some r =>
        obtain ⟨cs, ps⟩ := r
        simp only [hfc] at h
        obtain ⟨new, h1, h2⟩ := ih (arr ++ cs) (params ++ ps) arr' params' h
        obtain ⟨-, ps2, -, hp2, -⟩ :=
          getFilterClauses_indices decode table rest (arr ++ cs) (params ++ ps) arr' params' h
        refine ⟨cs ++ new, by simp [h1], fun c hc => ?_⟩
        rcases List.mem_append.1 hc with hc | hc
        · obtain ⟨he, hf⟩ := filterCase_sound decode table key v params.length cs ps hfc c hc
          have hop := filterCase_operands decode table key v params.length he
          rw [hfc] at hop
          simp only [Option.map_some'] at hop
          refine ⟨key, v, params.length + 1, List.mem_cons_self _ _, hf, ps, hop.symm, ?_⟩
          intro o ho
          have hsingle := operands_singleton decode key v ps hop.symm o ho
          rw [hp2, hsingle, Nat.add_sub_cancel, List.get?_eq_getElem?, List.append_assoc,
            List.getElem?_append_right (le_refl _)]
          simp
        · obtain ⟨k, w, n, hm, he⟩ := h2 c hc
          exact ⟨k, w, n, List.mem_cons_of_mem _ hm, he⟩

theorem getFilterClauses_of_none_eligible (decode : Decoder) (table : String) :
    ∀ (filters : Filters) (arr : List String) (params : List Param),
      (∀ key v, (key, FilterValue.str v) ∈ filters → eligible key table = false) →
      getFilterClauses decode table filters arr params = some (arr, params) := by
  intro filters
  induction filters with
  | nil => intro arr params _; rfl
  | cons kv rest ih =>
    obtain ⟨key, filter⟩ := kv
    intro arr params hel
    have hel' : ∀ k v, (k, FilterValue.str v) ∈ rest → eligible k table = false :=
      fun k v hm => hel k v (List.mem_cons_of_mem _ hm)
    cases filter with
    | undefined => simpa only [getFilterClauses, FilterValue.active?] using ih arr params hel'
    | ignored => simpa only [getFilterClauses, FilterValue.active?] using ih arr params hel'
    | str v =>
      have hfc := filterCase_of_not_eligible decode table key v params.length
        (hel key v (List.mem_cons_self _ _))
      simpa only [getFilterClauses, FilterValue.active?, hfc, List.append_nil]
        using ih arr params hel'

theorem getFilterClauses_filter_active (decode : Decoder) (table : String) :
    ∀ (filters : Filters) (arr : List String) (params : List Param),
      getFilterClauses decode table (filters.filter fun kv => kv.2.active?.isSome) arr params =
        getFilterClauses decode table filters arr params := by
  intro filters
  induction filters with
  | nil => intro arr params; rfl
  | cons kv rest ih =>
    obtain ⟨key, filter⟩ := kv
    intro arr params
    cases filter with
    | undefined =>
      simpa only [getFilterClauses, FilterValue.active?, List.filter, Option.isSome]
        using ih arr params
    | ignored =>
      simpa only [getFilterClauses, FilterValue.active?, List.filter, Option.isSome]
        using ih arr params
    | str v =>
      simp only [getFilterClauses, FilterValue.active?, List.filter, Option.isSome]
      cases filterCase decode table key v params.length with
      | none => rfl
      | some r => exact ih _ _

theorem filterCase_session (decode : Decoder) (key v : String) (len : Nat)
    (hkey : key = "os" ∨ key = "browser" ∨ key = "device" ∨ key = "country") :
    filterCase decode "session" key v len =
      (decode v).map fun d =>
        (["and session." ++ key ++ "=" ++ placeholder (len + 1)], [Param.str d]) := by
  unfold filterCase
  rcases hkey with rfl | rfl | rfl | rfl <;> simp

theorem getFilterClauses_session (decode : Decoder) :
    ∀ (filters : Filters) (arr : List String) (params : List Param)
      (arr' : List String) (params' : List Param),
      (∀ kv ∈ filters,
        kv.1 = "os" ∨ kv.1 = "browser" ∨ kv.1 = "device" ∨ kv.1 = "country") →
      getFilterClauses decode "session" filters arr params = some (arr', params') →
      arr' = arr ++ sessionClauses (params.length + 1) (activeEntries filters) ∧
      ∃ ops, params' = params ++ ops ∧
        ops.map some = (activeEntries filters).map fun kv => (decode kv.2).map Param.str := by
  intro filters
  induction filters with
  | nil =>
    intro arr params arr' params' _ h
    simp only [getFilterClauses, Option.some.injEq, Prod.mk.injEq] at h
    exact ⟨by simp [h.1, sessionClauses, activeEntries], [], by simp [h.2],
      by simp [activeEntries]⟩
  | cons kv rest ih =>
    obtain ⟨key, filter⟩ := kv
    intro arr params arr' params' hkeys h
    have hkeys' : ∀ kv ∈ rest,
        kv.1 = "os" ∨ kv.1 = "browser" ∨ kv.1 = "device" ∨ kv.1 = "country" :=
      fun kv hm => hkeys kv (List.mem_cons_of_mem _ hm)
    cases filter with
    | undefined =>
      simp only [getFilterClauses, FilterValue.active?] at h
      simpa [activeEntries, FilterValue.active?] using ih arr params arr' params' hkeys' h
    | ignored =>
      simp only [getFilterClauses, FilterValue.active?] at h
      simpa [activeEntries, FilterValue.active?] using ih arr params arr' params' hkeys' h
    | str v =>
      have hkey := hkeys (key, FilterValue.str v) (List.mem_cons_self _ _)
      simp only [getFilterClauses, FilterValue.active?, filterCase_session decode key v _ hkey]
        at h
      cases hd : decode v with
      | none => simp [hd] at h
      | some d =>
        simp only [hd, Option.map_some'] at h
        obtain ⟨h1, ops, h2, h3⟩ := ih _ _ arr' params' hkeys' h
        have hact : activeEntries ((key, FilterValue.str v) :: rest) =
            (key, v) :: activeEntries rest := by
          simp [activeEntries, FilterValue.active?]
        refine ⟨?_, Param.str d :: ops, ?_, ?_⟩
        · rw [h1, hact]
          simp [sessionClauses, List.append_assoc]
        · rw [h2]
          simp
        · rw [hact]
          simp [hd, h3]

/-! ## Further properties of getFilterQuery -/

/-- C12: when no active key of the filter map is eligible for the table,
`getFilterQuery` returns the empty fragment and the parameter list it was given;
it does so for every decoder, so also when the decoding of a value would throw. -/
theorem getFilterQuery_of_none_eligible (decode : Decoder) (table column : String)
    (filters : Filters) (params : List Param)
    (h : ∀ key v, (key, FilterValue.str v) ∈ filters → eligible key table = false) :
    getFilterQuery decode table column filters params = some ("", params) := by
  simp only [getFilterQuery, getFilterClauses_of_none_eligible decode table filters [] params h,
    Option.map_some']
  rfl

theorem getFilterQuery_of_none_eligible_witness :
    getFilterQuery (fun _ => none) "session" "created_at"
        [("url", FilterValue.str "%E0%A4%A"), ("event_name", FilterValue.str "%"),
         ("os", FilterValue.ignored)] [Param.int 7 (by decide)] = some ("", [Param.int 7 (by decide)]) :=
  getFilterQuery_of_none_eligible (fun _ => none) "session" "created_at"
    [("url", FilterValue.str "%E0%A4%A"), ("event_name", FilterValue.str "%"),
     ("os", FilterValue.ignored)] [Param.int 7 (by decide)]
    (by
      intro key v hm
      simp only [List.mem_cons, Prod.mk.injEq, List.mem_singleton, List.not_mem_nil,
        or_false] at hm
      rcases hm with ⟨rfl, -⟩ | ⟨rfl, -⟩ | ⟨-, h⟩
      · decide
      · decide
      · exact absurd h (by simp))

/-- C13: entries whose value is undefined or the ignored sentinel are dropped:
two filter maps with the same active entries in the same order, as when such
entries are added to a map at any places, give the same fragment and the same
parameter list. -/
theorem getFilterQuery_ignores_inactive (decode : Decoder) (table column : String)
    (filters filters' : Filters) (params : List Param)
    (h : filters'.filter (fun kv => kv.2.active?.isSome) =
      filters.filter (fun kv => kv.2.active?.isSome)) :
    getFilterQuery decode table column filters' params =
      getFilterQuery decode table column filters params := by
  simp only [getFilterQuery]
  rw [← getFilterClauses_filter_active decode table filters',
    ← getFilterClauses_filter_active decode table filters, h]

theorem getFilterQuery_ignores_inactive_witness :
    getFilterQuery identityDecoder "pageview" "created_at"
        [("os", FilterValue.undefined), ("url", FilterValue.str "/docs"),
         ("domain", FilterValue.ignored), ("referrer", FilterValue.str "news"),
         ("query", FilterValue.undefined)] [Param.int 1 (by decide)] =
      getFilterQuery identityDecoder "pageview" "created_at"
        [("url", FilterValue.str "/docs"), ("referrer", FilterValue.str "news")]
        [Param.int 1 (by decide)] ∧
    getFilterQuery identityDecoder "pageview" "created_at"
        [("url", FilterValue.str "/docs"), ("referrer", FilterValue.str "news")]
        [Param.int 1 (by decide)] =
      some ("and pageview.url=$2\nand pageview.referrer like $3",
        [Param.int 1 (by decide), Param.str "/docs", Param.str "%news%"]) :=
  ⟨getFilterQuery_ignores_inactive identityDecoder "pageview" "created_at"
      [("url", FilterValue.str "/docs"), ("referrer", FilterValue.str "news")]
      [("os", FilterValue.undefined), ("url", FilterValue.str "/docs"),
       ("domain", FilterValue.ignored), ("referrer", FilterValue.str "news"),
       ("query", FilterValue.undefined)] [Param.int 1 (by decide)] (by decide),
   by decide⟩

/-- C14: for every string `d`, the filter set with the single entry
`domain: d` compiled for the table pageview with `k` parameters gives the clause
`and pageview.referrer not like $(k+1)`, a newline and the fixed clause
`and pageview.referrer not like '/%'`, and appends the one parameter `%://d/%`;
`parseFilters` returns this fragment as `pageviewQuery`, with empty session and
event fragments. -/
theorem getFilterQuery_domain (decode : Decoder) (column d : String) (params : List Param) :
    getFilterQuery decode "pageview" column [("domain", FilterValue.str d)] params =
      some ("and pageview.referrer not like " ++ placeholder (params.length + 1) ++ "\n" ++
          "and pageview.referrer not like '/%'",
        params ++ [Param.str ("%://" ++ d ++ "/%")]) ∧
    ∀ (ignoredTruthy : Bool) (table sessionKey : String),
      (parseFilters decode ignoredTruthy table column [("domain", FilterValue.str d)] params
          sessionKey).map (fun r => (r.1.pageviewQuery, r.1.sessionQuery, r.1.eventQuery, r.2)) =
        some ("and pageview.referrer not like " ++ placeholder (params.length + 1) ++ "\n" ++
            "and pageview.referrer not like '/%'", "", "",
          params ++ [Param.str ("%://" ++ d ++ "/%")]) := by
  have h1 : getFilterQuery decode "pageview" column [("domain", FilterValue.str d)] params =
      some ("and pageview.referrer not like " ++ placeholder (params.length + 1) ++ "\n" ++
          "and pageview.referrer not like '/%'",
        params ++ [Param.str ("%://" ++ d ++ "/%")]) := by
    simp [getFilterQuery, getFilterClauses, FilterValue.active?, filterCase,
      String.intercalate, String.intercalate.go]
  refine ⟨h1, fun ignoredTruthy table sessionKey => ?_⟩
  simp [parseFilters, Filters.get, getFilterQuery, getFilterClauses, FilterValue.active?,
    filterCase, String.intercalate, String.intercalate.go]

/-- C19: a returning `getFilterQuery` call only appends to the parameter list:
the list it was given is a prefix of the list afterwards, and the placeholders
of the fragment are numbered from the old length plus one onwards, in order,
one for each appended parameter. -/
theorem getFilterQuery_appends (decode : Decoder) (table column : String)
    (filters : Filters) (params : List Param) (query : String) (params' : List Param)
    (h : getFilterQuery decode table column filters params = some (query, params')) :
    params <+: params' ∧
    placeholderIndices query =
      List.range' (params.length + 1) (params'.length - params.length) ∧
    (placeholderIndices query).length = params'.length - params.length := by
  obtain ⟨ps, h1, h2⟩ := getFilterQuery_indices decode table column filters params query
    params' h
  subst h1
  have hlen : (params ++ ps).length - params.length = ps.length := by
    simp
  refine ⟨⟨ps, rfl⟩, by rw [h2, hlen], by rw [h2, hlen, List.length_range']⟩

theorem getFilterQuery_appends_witness :
    [Param.int 7 (by decide)] <+: [Param.int 7 (by decide), Param.str "%://example.com/%", Param.str "/docs"] ∧
    placeholderIndices
        "and pageview.referrer not like $2\nand pageview.referrer not like '/%'\nand pageview.url=$3" =
      List.range' 2 2 :=
  have h := getFilterQuery_appends identityDecoder "pageview" "created_at"
    [("domain", FilterValue.str "example.com"), ("os", FilterValue.str "Linux"),
     ("url", FilterValue.str "/docs")] [Param.int 7 (by decide)]
    "and pageview.referrer not like $2\nand pageview.referrer not like '/%'\nand pageview.url=$3"
    [Param.int 7 (by decide), Param.str "%://example.com/%", Param.str "/docs"] (by decide)
  ⟨h.1, h.2.1⟩

/-- C18, as stated, fails: between the first date literal and `and` the
returned string has a blank, a line break and four blanks, not one blank. -/
theorem getBetweenDates_line_break :
    getBetweenDates epochDateFormat "created_at" 0 86400000 =
      "created_at between '1970-01-01 00:00:00' \n    and '1970-01-02 00:00:00'" ∧
    getBetweenDates epochDateFormat "created_at" 0 86400000 ≠
      "created_at" ++ " between " ++ getDateFormat epochDateFormat 0 ++ " and " ++
        getDateFormat epochDateFormat 86400000 := by
  decide

/-- C18, amended: `getBetweenDates` returns the field, ` between `, the date
literal of the start, then a blank, a line break, four blanks and `and `, then
the date literal of the end, where the date literal of a timestamp is the
formatted timestamp between apostrophes. -/
theorem getBetweenDates_eq {Date : Type} (dateFormat : Date → String → String)
    (field : String) (start_at end_at : Date) :
    getBetweenDates dateFormat field start_at end_at =
      field ++ " between " ++ getDateFormat dateFormat start_at ++ " \n    and " ++
        getDateFormat dateFormat end_at ∧
    getDateFormat dateFormat start_at =
      "'" ++ dateFormat start_at "UTC:yyyy-mm-dd HH:MM:ss" ++ "'" ∧
    getDateFormat dateFormat end_at =
      "'" ++ dateFormat end_at "UTC:yyyy-mm-dd HH:MM:ss" ++ "'" :=
  ⟨rfl, rfl, rfl⟩

/-- C17, as stated, fails for `domain`: its value goes into the operand as
given, also where decoding changes it. -/
theorem getFilterQuery_domain_not_decoded :
    asciiDecoder "ex%2Ecom" = some "ex.com" ∧
    getFilterQuery asciiDecoder "pageview" "created_at"
        [("domain", FilterValue.str "ex%2Ecom")] [] =
      some ("and pageview.referrer not like $1\nand pageview.referrer not like '/%'",
        [Param.str "%://ex%2Ecom/%"]) ∧
    [Param.str "%://ex%2Ecom/%"] ≠ [Param.str "%://ex.com/%"] := by
  decide

/-- C17, amended: for an active key that is eligible for the table,
`getFilterQuery` appends exactly the operands of the key: the decoded value for
`url`, `os`, `browser`, `device`, `country` and `event_name`, the decoded value
between `%` for `referrer`, and for `domain` the value as given, not decoded,
inside `%://` and `/%`; it throws when the decoding it needs throws. -/
theorem getFilterQuery_operands (decode : Decoder) (table column key v : String)
    (params : List Param) (h : eligible key table = true) :
    (getFilterQuery decode table column [(key, FilterValue.str v)] params).map Prod.snd =
      (operands decode key v).map fun ops => params ++ ops := by
  have hop := filterCase_operands decode table key v params.length h
  simp only [getFilterQuery, getFilterClauses, FilterValue.active?]
  rw [← hop]
  cases filterCase decode table key v params.length with
  | none => rfl
  | some r => rfl

theorem getFilterQuery_operands_witness :
    (getFilterQuery asciiDecoder "event" "created_at"
        [("referrer", FilterValue.str "a%20b")] [Param.int 7 (by decide)]).map Prod.snd =
      some [Param.int 7 (by decide), Param.str "%a b%"] ∧
    (operands asciiDecoder "referrer" "a%20b").map (fun ops => [Param.int 7 (by decide)] ++ ops) =
      some [Param.int 7 (by decide), Param.str "%a b%"] :=
  ⟨(getFilterQuery_operands asciiDecoder "event" "created_at" "referrer" "a%20b"
      [Param.int 7 (by decide)] (by decide)).trans (by decide), by decide⟩

/-! ## The three calls of parseFilters -/

/-- A returning `parseFilters` call is three returning `getFilterQuery` calls
on the three objects, each started with the parameter list the one before it
left. -/
theorem parseFilters_eq_some (decode : Decoder) (ignoredTruthy : Bool)
    (table column : String) (filters : Filters) (params : List Param) (sessionKey : String)
    (r : ParsedFilters) (params' : List Param)
    (h : parseFilters decode ignoredTruthy table column filters params sessionKey =
      some (r, params')) :
    ∃ p1 p2,
      getFilterQuery decode "pageview" column (pageviewFiltersOf filters) params =
        some (r.pageviewQuery, p1) ∧
      getFilterQuery decode "session" column (sessionFiltersOf filters) p1 =
        some (r.sessionQuery, p2) ∧
      getFilterQuery decode "event" column (eventFiltersOf filters) p2 =
        some (r.eventQuery, params') ∧
      r.joinSession = joinSessionOf ignoredTruthy table filters sessionKey ∧
      r.pageviewFilters = pageviewFiltersOf filters ∧
      r.sessionFilters = sessionFiltersOf filters ∧
      r.eventFilters = eventFiltersOf filters ∧
      r.event = [("event_name", filters.get "event_name")] := by
  unfold parseFilters at h
  simp only at h
  split at h
  · exact absurd h (by simp)
  · rename_i pq p1 h1
    split at h
    · exact absurd h (by simp)
    · rename_i sq p2 h2
      split at h
      · exact absurd h (by simp)
      · rename_i eq p3 h3
        simp only [Option.some.injEq, Prod.mk.injEq] at h
        obtain ⟨hr, hp⟩ := h
        subst hr
        subst hp
        exact ⟨p1, p2, h1, h2, h3, rfl, rfl, rfl, rfl, rfl⟩

theorem getFilterQuery_eq_some (decode : Decoder) (table column : String)
    (filters : Filters) (params : List Param) (query : String) (params' : List Param)
    (h : getFilterQuery decode table column filters params = some (query, params')) :
    ∃ arr, getFilterClauses decode table filters [] params = some (arr, params') ∧
      query = "\n".intercalate arr := by
  simp only [getFilterQuery, Option.map_eq_some', Prod.mk.injEq] at h
  obtain ⟨⟨arr, ps⟩, h1, h2, h3⟩ := h
  simp only at h2 h3
  subst h3
  exact ⟨arr, h1, h2.symm⟩

theorem get?_append_of_some {α : Type} (l m : List α) (i : Nat) (o : α)
    (h : l.get? i = some o) : (l ++ m).get? i = some o := by
  have hlt : i < l.length := by
    by_contra hge
    rw [List.get?_eq_none.2 (by omega)] at h
    exact Option.noConfusion h
  rw [List.get?_eq_getElem?, List.getElem?_append_left hlt, ← List.get?_eq_getElem?, h]

theorem getFilterQuery_clausesBound (decode : Decoder) (table column : String)
    (filters : Filters) (params : List Param) (query : String) (params' more : List Param)
    (h : getFilterQuery decode table column filters params = some (query, params')) :
    ClausesBound decode table filters query (params' ++ more) := by
  obtain ⟨arr, h1, h2⟩ := getFilterQuery_eq_some decode table column filters params query
    params' h
  obtain ⟨new, h3, h4⟩ := getFilterClauses_positions decode table filters [] params arr
    params' h1
  simp only [List.nil_append] at h3
  subst h3
  refine ⟨arr, h2, fun c hc => ?_⟩
  obtain ⟨key, v, k, hm, hf, ops, hop, hpos⟩ := h4 c hc
  exact ⟨key, v, k, hm, hf, ops, hop,
    fun o ho => get?_append_of_some params' more (k - 1) o (hpos o ho)⟩

theorem getFilterQuery_clausesOf (decode : Decoder) (table column : String)
    (filters : Filters) (params : List Param) (query : String) (params' : List Param)
    (h : getFilterQuery decode table column filters params = some (query, params')) :
    ClausesOf table filters query := by
  obtain ⟨arr, h1, h2⟩ := getFilterQuery_eq_some decode table column filters params query
    params' h
  obtain ⟨new, h3, h4⟩ := getFilterClauses_sound decode table filters [] params arr params' h1
  simp only [List.nil_append] at h3
  subst h3
  refine ⟨arr, h2, fun c hc => ?_⟩
  obtain ⟨key, v, k, hm, -, hf⟩ := h4 c hc
  exact ⟨key, v, k, hm, hf⟩

theorem getFilterQuery_params (decode : Decoder) (table column : String)
    (filters : Filters) (params : List Param) (query : String) (params' : List Param)
    (hel : ∀ key v, (key, FilterValue.str v) ∈ filters → eligible key table = true)
    (h : getFilterQuery decode table column filters params = some (query, params')) :
    ∃ ops, operandsOf decode filters = some ops ∧ params' = params ++ ops := by
  obtain ⟨arr, h1, -⟩ := getFilterQuery_eq_some decode table column filters params query
    params' h
  exact getFilterClauses_params decode table filters [] params arr params' hel h1

theorem operandsOf_append (decode : Decoder) :
    ∀ (a b : Filters) (x y : List Param), operandsOf decode a = some x →
      operandsOf decode b = some y → operandsOf decode (a ++ b) = some (x ++ y) := by
  intro a
  induction a with
  | nil =>
    intro b x y hx hy
    simp only [operandsOf, Option.some.injEq] at hx
    subst hx
    simpa using hy
  | cons kv rest ih =>
    obtain ⟨key, value⟩ := kv
    intro b x y hx hy
    cases hv : value.active? with
    | none =>
      simp only [operandsOf, hv] at hx
      simpa only [List.cons_append, operandsOf, hv] using ih b x y hx hy
    | some v =>
      simp only [operandsOf, hv] at hx
      cases ho : operands decode key v with
      | none => simp [ho] at hx
      | some o =>
        cases hr : operandsOf decode rest with
        | none => simp [ho, hr] at hx
        | some z =>
          simp only [ho, hr, Option.some.injEq] at hx
          subst hx
          simp only [List.cons_append, operandsOf, hv, ho, List.append_eq, ih b z y hr hy,
            List.append_assoc]

theorem operandsOf_drop_query (decode : Decoder) (a : Filters) (q : FilterValue)
    (x : List Param) (h : operandsOf decode (a ++ [("query", q)]) = some x) :
    operandsOf decode a = some x := by
  induction a generalizing x with
  | nil =>
    cases q <;> simp_all [operandsOf, FilterValue.active?, operands]
  | cons kv rest ih =>
    obtain ⟨key, value⟩ := kv
    cases hv : value.active? with
    | none =>
      simp only [List.cons_append, operandsOf, hv] at h ⊢
      exact ih x h
    | some v =>
      simp only [List.cons_append, operandsOf, hv] at h ⊢
      cases ho : operands decode key v with
      | none => simp [ho] at h
      | some o =>
        cases hr : operandsOf decode (rest ++ [("query", q)]) with
        | none => simp [ho, List.append_eq, hr] at h
        | some z =>
          simp only [ho, List.append_eq, hr, Option.some.injEq] at h
          simp only [ih z hr, h]

theorem getFilterQuery_of_none_active (decode : Decoder) (table column : String)
    (filters : Filters) (params : List Param)
    (h : ∀ kv ∈ filters, kv.2.active? = none) :
    getFilterQuery decode table column filters params = some ("", params) := by
  have hel : ∀ key v, (key, FilterValue.str v) ∈ filters → eligible key table = false := by
    intro key v hm
    have := h _ hm
    simp [FilterValue.active?] at this
  simp only [getFilterQuery, getFilterClauses_of_none_eligible decode table filters [] params hel,
    Option.map_some']
  rfl

theorem clausesOf_of_none_active (table : String) (filters : Filters) (query : String)
    (hc : ClausesOf table filters query) (h : ∀ kv ∈ filters, kv.2.active? = none) :
    query = "" := by
  obtain ⟨clauses, h1, h2⟩ := hc
  cases clauses with
  | nil => rw [h1]; rfl
  | cons c cs =>
    obtain ⟨key, v, k, hm, -⟩ := h2 c (List.mem_cons_self _ _)
    have := h _ hm
    simp [FilterValue.active?] at this

/-! ## Properties of parseFilters -/

/-- C11: after a returning `parseFilters` call the parameter list is the
initial list followed by the operands of the active `domain`, `url` and
`referrer`, then those of the active `os`, `browser`, `device` and `country`,
then those of the active `event_url` and `event_name`; and for every clause of
the three fragments the operand of its key stands at the position that the
placeholder of the clause names. -/
theorem parseFilters_params_order (decode : Decoder) (ignoredTruthy : Bool)
    (table column : String) (filters : Filters) (params : List Param) (sessionKey : String)
    (r : ParsedFilters) (params' : List Param)
    (h : parseFilters decode ignoredTruthy table column filters params sessionKey =
      some (r, params')) :
    (∃ ops, operandsOf decode
        ([("domain", filters.get "domain"), ("url", filters.get "url"),
          ("referrer", filters.get "referrer")] ++
          [("os", filters.get "os"), ("browser", filters.get "browser"),
           ("device", filters.get "device"), ("country", filters.get "country")] ++
          [("url", filters.get "event_url"), ("event_name", filters.get "event_name")]) =
          some ops ∧ params' = params ++ ops) ∧
    ClausesBound decode "pageview" (pageviewFiltersOf filters) r.pageviewQuery params' ∧
    ClausesBound decode "session" (sessionFiltersOf filters) r.sessionQuery params' ∧
    ClausesBound decode "event" (eventFiltersOf filters) r.eventQuery params' := by
  obtain ⟨p1, p2, h1, h2, h3, -⟩ := parseFilters_eq_some decode ignoredTruthy table column
    filters params sessionKey r params' h
  have e1 : ∀ key v, (key, FilterValue.str v) ∈ pageviewFiltersOf filters →
      eligible key "pageview" = true := by
    intro key v hm
    simp only [pageviewFiltersOf, List.mem_cons, Prod.mk.injEq, List.mem_singleton,
      List.not_mem_nil, or_false] at hm
    rcases hm with ⟨rfl, -⟩ | ⟨rfl, -⟩ | ⟨rfl, -⟩ | ⟨rfl, -⟩ <;> decide
  have e2 : ∀ key v, (key, FilterValue.str v) ∈ sessionFiltersOf filters →
      eligible key "session" = true := by
    intro key v hm
    simp only [sessionFiltersOf, List.mem_cons, Prod.mk.injEq, List.mem_singleton,
      List.not_mem_nil, or_false] at hm
    rcases hm with ⟨rfl, -⟩ | ⟨rfl, -⟩ | ⟨rfl, -⟩ | ⟨rfl, -⟩ <;> decide
  have e3 : ∀ key v, (key, FilterValue.str v) ∈ eventFiltersOf filters →
      eligible key "event" = true := by
    intro key v hm
    simp only [eventFiltersOf, List.mem_cons, Prod.mk.injEq, List.mem_singleton,
      List.not_mem_nil, or_false] at hm
    rcases hm with ⟨rfl, -⟩ | ⟨rfl, -⟩ <;> decide
  obtain ⟨o1, q1, rfl⟩ := getFilterQuery_params _ _ _ _ _ _ _ e1 h1
  obtain ⟨o2, q2, rfl⟩ := getFilterQuery_params _ _ _ _ _ _ _ e2 h2
  obtain ⟨o3, q3, rfl⟩ := getFilterQuery_params _ _ _ _ _ _ _ e3 h3
  refine ⟨⟨o1 ++ o2 ++ o3, ?_, by simp [List.append_assoc]⟩, ?_, ?_, ?_⟩
  · have q1' := operandsOf_drop_query decode
      [("domain", filters.get "domain"), ("url", filters.get "url"),
       ("referrer", filters.get "referrer")] (filters.get "query") o1 q1
    exact operandsOf_append decode _ _ _ _ (operandsOf_append decode _ _ _ _ q1' q2) q3
  · have := getFilterQuery_clausesBound decode "pageview" column _ params _ _ (o2 ++ o3) h1
    simpa [List.append_assoc] using this
  · have := getFilterQuery_clausesBound decode "session" column _ _ _ _ o3 h2
    simpa [List.append_assoc] using this
  · have := getFilterQuery_clausesBound decode "event" column _ _ _ _ [] h3
    simpa [List.append_assoc] using this

/-- C16: the fragments of a returning `parseFilters` call are partitioned by
table: every clause of `pageviewQuery` is a pageview clause of an active
`domain`, `url`, `referrer` or `query`, every clause of `sessionQuery` a session
clause of an active `os`, `browser`, `device` or `country`, and every clause of
`eventQuery` an event clause of the active `event_url`, written for the column
`url`, or of the active `event_name`; a fragment is empty when none of its own
keys is active, whatever the other keys hold. -/
theorem parseFilters_partition (decode : Decoder) (ignoredTruthy : Bool)
    (table column : String) (filters : Filters) (params : List Param) (sessionKey : String)
    (r : ParsedFilters) (params' : List Param)
    (h : parseFilters decode ignoredTruthy table column filters params sessionKey =
      some (r, params')) :
    ClausesOf "pageview"
      [("domain", filters.get "domain"), ("url", filters.get "url"),
       ("referrer", filters.get "referrer"), ("query", filters.get "query")]
      r.pageviewQuery ∧
    ClausesOf "session"
      [("os", filters.get "os"), ("browser", filters.get "browser"),
       ("device", filters.get "device"), ("country", filters.get "country")]
      r.sessionQuery ∧
    ClausesOf "event"
      [("url", filters.get "event_url"), ("event_name", filters.get "event_name")]
      r.eventQuery ∧
    ((∀ key ∈ ["domain", "url", "referrer", "query"], (filters.get key).active? = none) →
      r.pageviewQuery = "") ∧
    ((∀ key ∈ ["os", "browser", "device", "country"], (filters.get key).active? = none) →
      r.sessionQuery = "") ∧
    ((∀ key ∈ ["event_url", "event_name"], (filters.get key).active? = none) →
      r.eventQuery = "") := by
  obtain ⟨p1, p2, h1, h2, h3, -⟩ := parseFilters_eq_some decode ignoredTruthy table column
    filters params sessionKey r params' h
  have c1 := getFilterQuery_clausesOf _ _ _ _ _ _ _ h1
  have c2 := getFilterQuery_clausesOf _ _ _ _ _ _ _ h2
  have c3 := getFilterQuery_clausesOf _ _ _ _ _ _ _ h3
  refine ⟨c1, c2, c3, fun hk => ?_, fun hk => ?_, fun hk => ?_⟩
  · apply clausesOf_of_none_active _ _ _ c1
    intro kv hm
    simp only [pageviewFiltersOf, List.mem_cons, List.mem_singleton, List.not_mem_nil,
      or_false] at hm
    rcases hm with rfl | rfl | rfl | rfl <;> exact hk _ (by simp)
  · apply clausesOf_of_none_active _ _ _ c2
    intro kv hm
    simp only [sessionFiltersOf, List.mem_cons, List.mem_singleton, List.not_mem_nil,
      or_false] at hm
    rcases hm with rfl | rfl | rfl | rfl <;> exact hk _ (by simp)
  · apply clausesOf_of_none_active _ _ _ c3
    intro kv hm
    simp only [eventFiltersOf, List.mem_cons, List.mem_singleton, List.not_mem_nil,
      or_false] at hm
    rcases hm with rfl | rfl <;> exact hk _ (by simp)

/-- C20: two `parseFilters` calls on the same filter set and parameter list
return the same three objects, the same `event`, the same `pageviewQuery`,
`sessionQuery` and `eventQuery` and the same parameter list, whatever their
`table`, `column` and `sessionKey`; `joinSession` is the one field that is
computed from `table` and `sessionKey`. -/
theorem parseFilters_fragments_independent (decode : Decoder) (ignoredTruthy : Bool)
    (table table' column column' sessionKey sessionKey' : String) (filters : Filters)
    (params : List Param) :
    (parseFilters decode ignoredTruthy table column filters params sessionKey).map
        (fun r => (r.1.pageviewFilters, r.1.sessionFilters, r.1.eventFilters, r.1.event,
          r.1.pageviewQuery, r.1.sessionQuery, r.1.eventQuery, r.2)) =
      (parseFilters decode ignoredTruthy table' column' filters params sessionKey').map
        (fun r => (r.1.pageviewFilters, r.1.sessionFilters, r.1.eventFilters, r.1.event,
          r.1.pageviewQuery, r.1.sessionQuery, r.1.eventQuery, r.2)) ∧
    (parseFilters decode ignoredTruthy table column filters params sessionKey).map
        (fun r => r.1.joinSession) =
      (parseFilters decode ignoredTruthy table column filters params sessionKey).map
        (fun _ => joinSessionOf ignoredTruthy table filters sessionKey) := by
  unfold parseFilters
  simp only [getFilterQuery]
  cases getFilterClauses decode "pageview"
      [("domain", filters.get "domain"), ("url", filters.get "url"),
       ("referrer", filters.get "referrer"), ("query", filters.get "query")] [] params with
  | none => exact ⟨rfl, rfl⟩
  | some r1 =>
    simp only [Option.map_some']
    cases getFilterClauses decode "session"
        [("os", filters.get "os"), ("browser", filters.get "browser"),
         ("device", filters.get "device"), ("country", filters.get "country")] [] r1.2 with
    | none => exact ⟨rfl, rfl⟩
    | some r2 =>
      simp only [Option.map_some']
      cases getFilterClauses decode "event"
          [("url", filters.get "event_url"), ("event_name", filters.get "event_name")] []
          r2.2 with
      | none => exact ⟨rfl, rfl⟩
      | some r3 => exact ⟨rfl, rfl⟩

theorem active?_of_not_truthy (ignoredTruthy : Bool) (value : FilterValue)
    (h : value.truthy ignoredTruthy = false) (hne : value ≠ FilterValue.str "") :
    value.active? = none := by
  cases value with
  | undefined => rfl
  | ignored => rfl
  | str v =>
    simp only [FilterValue.truthy, bne_eq_false_iff_eq] at h
    exact absurd (by rw [h]) hne

/-- C15: when `domain`, `url`, `referrer`, `query`, `event_url` and `event_name`
are not active, no session key holds the empty string and at least one session
key is active, a returning `parseFilters` call gives the inner-join clause as
`joinSession`, empty `pageviewQuery` and `eventQuery`, and as `sessionQuery` one
clause `and session.<key>=$n` for each active session key, in the order `os`,
`browser`, `device`, `country`, joined by newlines, with consecutive placeholders
from the length of the initial list plus one; the decoded values are appended to
the parameter list in the same order. -/
theorem parseFilters_session_only (decode : Decoder) (ignoredTruthy : Bool)
    (table column : String) (filters : Filters) (params : List Param) (sessionKey : String)
    (r : ParsedFilters) (params' : List Param)
    (hother : ∀ key ∈ ["domain", "url", "referrer", "query", "event_url", "event_name"],
      (filters.get key).active? = none)
    (hnonempty : ∀ key ∈ ["os", "browser", "device", "country"],
      filters.get key ≠ FilterValue.str "")
    (hactive : activeEntries (sessionFiltersOf filters) ≠ [])
    (h : parseFilters decode ignoredTruthy table column filters params sessionKey =
      some (r, params')) :
    r.joinSession =
      "inner join session on " ++ table ++ "." ++ sessionKey ++ " = session." ++ sessionKey ∧
    r.pageviewQuery = "" ∧ r.eventQuery = "" ∧
    r.sessionQuery = "\n".intercalate
      (sessionClauses (params.length + 1) (activeEntries (sessionFiltersOf filters))) ∧
    ∃ ops, params' = params ++ ops ∧
      ops.map some =
        (activeEntries (sessionFiltersOf filters)).map fun kv => (decode kv.2).map Param.str := by
  obtain ⟨p1, p2, h1, h2, h3, hj, -⟩ := parseFilters_eq_some decode ignoredTruthy table column
    filters params sessionKey r params' h
  have n1 : ∀ kv ∈ pageviewFiltersOf filters, kv.2.active? = none := by
    intro kv hm
    simp only [pageviewFiltersOf, List.mem_cons, List.mem_singleton, List.not_mem_nil,
      or_false] at hm
    rcases hm with rfl | rfl | rfl | rfl <;> exact hother _ (by simp)
  have n3 : ∀ kv ∈ eventFiltersOf filters, kv.2.active? = none := by
    intro kv hm
    simp only [eventFiltersOf, List.mem_cons, List.mem_singleton, List.not_mem_nil,
      or_false] at hm
    rcases hm with rfl | rfl <;> exact hother _ (by simp)
  rw [getFilterQuery_of_none_active decode "pageview" column _ params n1] at h1
  simp only [Option.some.injEq, Prod.mk.injEq] at h1
  obtain ⟨hq1, hp1⟩ := h1
  subst hp1
  rw [getFilterQuery_of_none_active decode "event" column _ p2 n3] at h3
  simp only [Option.some.injEq, Prod.mk.injEq] at h3
  obtain ⟨hq3, hp3⟩ := h3
  subst hp3
  obtain ⟨arr, h4, h5⟩ := getFilterQuery_eq_some decode "session" column _ _ _ _ h2
  have hkeys : ∀ kv ∈ sessionFiltersOf filters,
      kv.1 = "os" ∨ kv.1 = "browser" ∨ kv.1 = "device" ∨ kv.1 = "country" := by
    intro kv hm
    simp only [sessionFiltersOf, List.mem_cons, List.mem_singleton, List.not_mem_nil,
      or_false] at hm
    rcases hm with rfl | rfl | rfl | rfl <;> simp
  obtain ⟨h6, ops, h7, h8⟩ := getFilterClauses_session decode _ [] params arr p2 hkeys h4
  simp only [List.nil_append] at h6
  refine ⟨?_, hq1.symm, hq3.symm, by rw [h5, h6], ops, h7, h8⟩
  rw [hj]
  unfold joinSessionOf
  split_ifs with hc
  · rfl
  · exfalso
    simp only [Bool.or_eq_true, not_or, Bool.not_eq_true] at hc
    obtain ⟨⟨⟨c1, c2⟩, c3⟩, c4⟩ := hc
    apply hactive
    have a1 := active?_of_not_truthy _ _ c1 (hnonempty "os" (by simp))
    have a2 := active?_of_not_truthy _ _ c2 (hnonempty "browser" (by simp))
    have a3 := active?_of_not_truthy _ _ c3 (hnonempty "device" (by simp))
    have a4 := active?_of_not_truthy _ _ c4 (hnonempty "country" (by simp))
    simp [activeEntries, sessionFiltersOf, a1, a2, a3, a4]

theorem parseFilters_session_only_witness :
    parseFilters identityDecoder true "pageview" "created_at"
        [("os", FilterValue.str "Linux"), ("country", FilterValue.str "US"),
         ("url", FilterValue.ignored)] [] "session_id" =
      some ({ pageviewFilters :=
                [("domain", FilterValue.undefined), ("url", FilterValue.ignored),
                 ("referrer", FilterValue.undefined), ("query", FilterValue.undefined)]
              sessionFilters :=
                [("os", FilterValue.str "Linux"), ("browser", FilterValue.undefined),
                 ("device", FilterValue.undefined), ("country", FilterValue.str "US")]
              eventFilters :=
                [("url", FilterValue.undefined), ("event_name", FilterValue.undefined)]
              event := [("event_name", FilterValue.undefined)]
              joinSession := "inner join session on pageview.session_id = session.session_id"
              pageviewQuery := ""
              sessionQuery := "and session.os=$1\nand session.country=$2"
              eventQuery := "" },
            [Param.str "Linux", Param.str "US"]) ∧
    "and session.os=$1\nand session.country=$2" = "\n".intercalate
      (sessionClauses (([] : List Param).length + 1)
        (activeEntries (sessionFiltersOf
          [("os", FilterValue.str "Linux"), ("country", FilterValue.str "US"),
           ("url", FilterValue.ignored)]))) :=
  ⟨by decide,
   (parseFilters_session_only identityDecoder true "pageview" "created_at"
      [("os", FilterValue.str "Linux"), ("country", FilterValue.str "US"),
       ("url", FilterValue.ignored)] [] "session_id"
      { pageviewFilters :=
          [("domain", FilterValue.undefined), ("url", FilterValue.ignored),
           ("referrer", FilterValue.undefined), ("query", FilterValue.undefined)]
        sessionFilters :=
          [("os", FilterValue.str "Linux"), ("browser", FilterValue.undefined),
           ("device", FilterValue.undefined), ("country", FilterValue.str "US")]
        eventFilters :=
          [("url", FilterValue.undefined), ("event_name", FilterValue.undefined)]
        event := [("event_name", FilterValue.undefined)]
        joinSession := "inner join session on pageview.session_id = session.session_id"
        pageviewQuery := ""
        sessionQuery := "and session.os=$1\nand session.country=$2"
        eventQuery := "" }
      [Param.str "Linux", Param.str "US"]
      (by decide) (by decide) (by decide) (by decide)).2.2.2.1⟩

theorem parseFilters_params_order_witness :
    ∃ ops, operandsOf identityDecoder
        ([("domain", FilterValue.str "example.com"), ("url", FilterValue.undefined),
          ("referrer", FilterValue.str "news")] ++
          [("os", FilterValue.undefined), ("browser", FilterValue.undefined),
           ("device", FilterValue.undefined), ("country", FilterValue.str "US")] ++
          [("url", FilterValue.str "/buy"), ("event_name", FilterValue.undefined)]) =
          some ops ∧
      [Param.int 7 (by decide), Param.str "%://example.com/%", Param.str "%news%", Param.str "US",
        Param.str "/buy"] = [Param.int 7 (by decide)] ++ ops :=
  (parseFilters_params_order identityDecoder true "event" "created_at"
    [("event_url", FilterValue.str "/buy"), ("country", FilterValue.str "US"),
     ("referrer", FilterValue.str "news"), ("domain", FilterValue.str "example.com")]
    [Param.int 7 (by decide)] "session_id"
    { pageviewFilters :=
        [("domain", FilterValue.str "example.com"), ("url", FilterValue.undefined),
         ("referrer", FilterValue.str "news"), ("query", FilterValue.undefined)]
      sessionFilters :=
        [("os", FilterValue.undefined), ("browser", FilterValue.undefined),
         ("device", FilterValue.undefined), ("country", FilterValue.str "US")]
      eventFilters := [("url", FilterValue.str "/buy"), ("event_name", FilterValue.undefined)]
      event := [("event_name", FilterValue.undefined)]
      joinSession := "inner join session on event.session_id = session.session_id"
      pageviewQuery :=
        "and pageview.referrer not like $2\nand pageview.referrer not like '/%'\nand pageview.referrer like $3"
      sessionQuery := "and session.country=$4"
      eventQuery := "and event.url=$5" }
    [Param.int 7 (by decide), Param.str "%://example.com/%", Param.str "%news%", Param.str "US",
      Param.str "/buy"]
    (by decide)).1

theorem parseFilters_partition_witness :
    ClausesOf "event" [("url", FilterValue.str "/buy"), ("event_name", FilterValue.undefined)]
      "and event.url=$3" ∧
    ClausesOf "session"
      [("os", FilterValue.undefined), ("browser", FilterValue.undefined),
       ("device", FilterValue.undefined), ("country", FilterValue.str "US")]
      "and session.country=$2" :=
  have h := parseFilters_partition identityDecoder true "event" "created_at"
    [("event_url", FilterValue.str "/buy"), ("country", FilterValue.str "US"),
     ("url", FilterValue.str "/docs")]
    [] "session_id"
    { pageviewFilters :=
        [("domain", FilterValue.undefined), ("url", FilterValue.str "/docs"),
         ("referrer", FilterValue.undefined), ("query", FilterValue.undefined)]
      sessionFilters :=
        [("os", FilterValue.undefined), ("browser", FilterValue.undefined),
         ("device", FilterValue.undefined), ("country", FilterValue.str "US")]
      eventFilters := [("url", FilterValue.str "/buy"), ("event_name", FilterValue.undefined)]
      event := [("event_name", FilterValue.undefined)]
      joinSession := "inner join session on event.session_id = session.session_id"
      pageviewQuery := "and pageview.url=$1"
      sessionQuery := "and session.country=$2"
      eventQuery := "and event.url=$3" }
    [Param.str "/docs", Param.str "US", Param.str "/buy"]
    (by decide)
  ⟨h.2.2.1, h.2.1⟩

end Umami
